import Mathlib

/-!
# Restricted_Zone_Monitor — verification of the zone-intrusion alerting engine

Shallow embedding of the core of the repository (alert_manager.py, config.py,
zone_marker.py) and proofs about it.

Modelling conventions:
* Python floats (timestamps, bbox coordinates) and ints (polygon vertices) are
  modelled exactly in `ℚ`; all the arithmetic the code performs on them
  (`+ - * / min max` and comparisons) is exact rational arithmetic.
* Python dicts `active_alerts : Dict[int, Alert]` and
  `track_positions : Dict[int, Tuple[float,float]]` are modelled extensionally
  as `ℤ → Option _` maps (a key is in the dict iff the map returns `some`).
* `time.time()`, read once at the top of `update_alerts` (line 63), is passed
  in explicitly as the `now` parameter of a tick.
* The possibly-unbound local variable `xinters` of `check_point_in_polygon`
  (lines 27-38) is modelled literally in `check_point_in_polygon_raw`, which
  threads `Option ℚ` for it and returns `none` if the toggle test ever reads
  it before any edge assigned it.
-/

/-- A polygon / restricted zone: the ordered vertex list
(`List[Tuple[int, int]]` in the source, embedded in `ℚ`). -/
abbrev Zone := List (ℚ × ℚ)

/-- Adjacent pairs of a list: `pathPairs [a,b,c] = [(a,b),(b,c)]`. -/
def pathPairs {α : Type} : List α → List (α × α)
  | [] => []
  | [_] => []
  | a :: b :: t => (a, b) :: pathPairs (b :: t)

/-- The edges walked by the loop of `check_point_in_polygon` (lines 27-38):
`p1` starts at `polygon[0]`, `p2` runs through `polygon[1], …, polygon[n % n]`,
so the edge list is `(v0,v1), (v1,v2), …, (v_{n-1}, v0)`.  (On the empty list
the Python code would fail at `polygon[0]`; there are no edges.) -/
def polyEdges (polygon : List (ℚ × ℚ)) : List ((ℚ × ℚ) × (ℚ × ℚ)) :=
  match polygon with
  | [] => []
  | v0 :: _ => pathPairs (polygon ++ [v0])

/-- One iteration of the ray-casting loop (lines 30-37), with the crossing
abscissa computed edge-locally.  The guards mirror the Python nesting:
`y > min(p1y,p2y)`, `y <= max(p1y,p2y)`, `x <= max(p1x,p2x)`, then
`p1x == p2x or x <= xinters` with
`xinters = (y - p1y) * (p2x - p1x) / (p2y - p1y) + p1x`. -/
def edge_toggles (x y : ℚ) (e : (ℚ × ℚ) × (ℚ × ℚ)) : Bool :=
  if min e.1.2 e.2.2 < y then
    if y ≤ max e.1.2 e.2.2 then
      if x ≤ max e.1.1 e.2.1 then
        if e.1.1 = e.2.1 ∨ x ≤ (y - e.1.2) * (e.2.1 - e.1.1) / (e.2.2 - e.1.2) + e.1.1
        then true else false
      else false
    else false
  else false

/-- `AlertManager.check_point_in_polygon` (lines 21-40): ray casting, even-odd
rule; the `inside` flag starts `False` and is toggled by each qualifying edge. -/
def check_point_in_polygon (point : ℚ × ℚ) (polygon : List (ℚ × ℚ)) : Bool :=
  (polyEdges polygon).foldl
    (fun inside e => if edge_toggles point.1 point.2 e then !inside else inside) false

/-- One iteration of the ray-casting loop modelled *literally*: the state is
`(inside, xinters)` where `xinters : Option ℚ` is `none` while the local
variable is still unbound.  Line 33-35 assigns it only when `p1y != p2y`;
line 36 reads it (short-circuit: only when `p1x ≠ p2x`), and an unbound read
is the error case `none`. -/
def polygon_step_raw (x y : ℚ) (st : Bool × Option ℚ) (e : (ℚ × ℚ) × (ℚ × ℚ)) :
    Option (Bool × Option ℚ) :=
  if min e.1.2 e.2.2 < y then
    if y ≤ max e.1.2 e.2.2 then
      if x ≤ max e.1.1 e.2.1 then
        let xo : Option ℚ :=
          if e.1.2 ≠ e.2.2
          then some ((y - e.1.2) * (e.2.1 - e.1.1) / (e.2.2 - e.1.2) + e.1.1)
          else st.2
        if e.1.1 = e.2.1 then some (!st.1, xo)
        else
          match xo with
          | none => none
          | some xi => some (if x ≤ xi then !st.1 else st.1, xo)
      else some st
    else some st
  else some st

/-- `check_point_in_polygon` modelled with the literal `xinters` data flow;
returns `none` if the toggle test would read `xinters` before any assignment. -/
def check_point_in_polygon_raw (point : ℚ × ℚ) (polygon : List (ℚ × ℚ)) : Option Bool := do
  let r ← (polyEdges polygon).foldlM (polygon_step_raw point.1 point.2) (false, none)
  pure r.1

/-- A detection bounding box `(x1, y1, x2, y2)`. -/
structure BBox where
  x1 : ℚ
  y1 : ℚ
  x2 : ℚ
  y2 : ℚ
deriving DecidableEq

/-- `AlertManager.get_bbox_center` (lines 42-47). -/
def get_bbox_center (bbox : BBox) : ℚ × ℚ :=
  ((bbox.x1 + bbox.x2) / 2, (bbox.y1 + bbox.y2) / 2)

/-- The `for zone_id, zone in enumerate(zones)` loop of
`check_zone_penetration` (lines 55-59): first containing zone wins, `(False, -1)`
when none contains the point. -/
def zone_scan (center_point : ℚ × ℚ) : List Zone → ℤ → Bool × ℤ
  | [], _ => (false, -1)
  | zone :: rest, zone_id =>
    if check_point_in_polygon center_point zone then (true, zone_id)
    else zone_scan center_point rest (zone_id + 1)

/-- `AlertManager.check_zone_penetration` (lines 49-59), minus its
`track_positions` side effect (line 53), which is modelled at the call sites
inside `update_alerts`. -/
def check_zone_penetration (bbox : BBox) (zones : List Zone) : Bool × ℤ :=
  zone_scan (get_bbox_center bbox) zones 0

/-- The `Alert` dataclass (lines 7-13). -/
structure Alert where
  track_id : ℤ
  zone_id : ℤ
  entry_time : ℚ
  last_seen_in_zone : ℚ
  is_active : Bool := true
deriving DecidableEq

/-- One tracker observation: an element of the `tracks` list passed to
`update_alerts` (a dict with keys `track_id` and `bbox` in the source). -/
structure Track where
  track_id : ℤ
  bbox : BBox
deriving DecidableEq

/-- The mutable state of `AlertManager` (lines 16-19). -/
structure AlertManager where
  active_alerts : ℤ → Option Alert
  track_positions : ℤ → Option (ℚ × ℚ)

/-- `AlertManager.__init__`: both dicts empty. -/
def initial_manager : AlertManager := ⟨fun _ => none, fun _ => none⟩

/-- `Config.ALARM_DURATION` (config.py line 25): seconds after leaving zone. -/
def ALARM_DURATION : ℚ := 3

/-- Point update of an extensionally modelled dict. -/
def update_map {α : Type} (m : ℤ → Option α) (k : ℤ) (v : Option α) : ℤ → Option α :=
  fun k' => if k' = k then v else m k'

/-- One iteration of the first loop of `update_alerts` (lines 68-93) for one
observed track: store the track's center in `track_positions` (line 53, the
side effect of `check_zone_penetration`), then, if the center penetrated a
zone, create a fresh alert (lines 82-89) or refresh the existing one in place
(lines 90-93). -/
def penetration_step (now : ℚ) (zones : List Zone) (st : AlertManager) (track : Track) :
    AlertManager :=
  let pen := check_zone_penetration track.bbox zones
  let st' : AlertManager :=
    ⟨st.active_alerts,
     update_map st.track_positions track.track_id (some (get_bbox_center track.bbox))⟩
  if pen.1 then
    match st'.active_alerts track.track_id with
    | none =>
      ⟨update_map st'.active_alerts track.track_id
         (some ⟨track.track_id, pen.2, now, now, true⟩),
       st'.track_positions⟩
    | some alert =>
      ⟨update_map st'.active_alerts track.track_id
         (some { alert with last_seen_in_zone := now, is_active := true }),
       st'.track_positions⟩
  else st'

/-- The fate of one ledger entry `(k, alert)` under the second loop of
`update_alerts` (lines 96-119) combined with the removal sweep (121-126) and
the stale-position cleanup (128-133).  The Python loop iterates the dict, but
each entry's fate depends only on that entry, the observation list, the zones
and the clock, so it is modelled entry-wise; `pos1` is `track_positions[k]`
after the first loop.  Result: (new ledger entry, new cached position).

* `k` observed (line 103): `current_track` is the first observation with this
  id (line 105); its penetration re-check (line 108) re-stores the center.
  If it did not penetrate, `is_active` is cleared (line 112) and, under the
  line 115 guard (the center was just stored, so the key is present), the
  record is removed when `now - last_seen_in_zone >= ALARM_DURATION`
  (lines 117-119).
* `k` not observed (lines 98-102): remove when
  `now - last_seen_in_zone >= ALARM_DURATION`; the cached position of an
  unobserved track is purged either way (lines 125-126, 129-133). -/
def expiry_pass_entry (now : ℚ) (tracks : List Track) (zones : List Zone)
    (k : ℤ) (alert : Alert) (pos1 : Option (ℚ × ℚ)) : Option Alert × Option (ℚ × ℚ) :=
  if tracks.any (fun t => t.track_id = k) then
    match tracks.find? (fun t => t.track_id = k) with
    | some current_track =>
      if (check_zone_penetration current_track.bbox zones).1 then
        (some alert, some (get_bbox_center current_track.bbox))
      else
        if (some (get_bbox_center current_track.bbox)).isSome then
          if ALARM_DURATION ≤ now - alert.last_seen_in_zone then (none, none)
          else (some { alert with is_active := false },
                some (get_bbox_center current_track.bbox))
        else (some { alert with is_active := false },
              some (get_bbox_center current_track.bbox))
    | none => (some alert, pos1)
  else
    if ALARM_DURATION ≤ now - alert.last_seen_in_zone then (none, none)
    else (some alert, none)

/-- `AlertManager.update_alerts` (lines 61-135): one tick.  Returns the new
manager state and the returned set `set(self.active_alerts.keys())`
(membership function).  `now` is the `current_time = time.time()` of line 63. -/
def update_alerts (now : ℚ) (tracks : List Track) (zones : List Zone) (st : AlertManager) :
    AlertManager × (ℤ → Bool) :=
  let st1 := tracks.foldl (penetration_step now zones) st
  let post : ℤ → Option Alert × Option (ℚ × ℚ) := fun k =>
    match st1.active_alerts k with
    | some alert => expiry_pass_entry now tracks zones k alert (st1.track_positions k)
    | none =>
      (none, if tracks.any (fun t => t.track_id = k) then st1.track_positions k else none)
  (⟨fun k => (post k).1, fun k => (post k).2⟩, fun k => ((post k).1).isSome)

/-- `AlertManager.get_alerted_tracks` (lines 137-139): the key set of the
ledger, as a membership function. -/
def get_alerted_tracks (st : AlertManager) : ℤ → Bool :=
  fun track_id => (st.active_alerts track_id).isSome

/-- `AlertManager.get_alert_status` (lines 141-156). -/
def get_alert_status (now : ℚ) (st : AlertManager) (track_id : ℤ) : Bool × ℚ :=
  match st.active_alerts track_id with
  | none => (false, 0)
  | some alert =>
    if alert.is_active then (true, 0)
    else
      (decide (0 < max 0 (ALARM_DURATION - (now - alert.last_seen_in_zone))),
       max 0 (ALARM_DURATION - (now - alert.last_seen_in_zone)))

/-- `Config.load_zones` (config.py lines 36-43): the zone file parsed, or
`none` when the file is missing (`FileNotFoundError` → `[]`; a present file
with no `zones` key is modelled as `some []`).  No validation of any kind is
performed on the vertex lists. -/
def load_zones (zones_file : Option (List Zone)) : List Zone :=
  match zones_file with
  | some zones => zones
  | none => []

/-- `ZoneMarker.mark_zones_callback` (zone_marker.py lines 19-26), the
`EVENT_RBUTTONDOWN` branch: with at least 3 clicked points the zone is
appended and the point buffer cleared; with fewer, a message is printed and
the state is left unchanged.  Nothing is raised in either case.
Result: (zones, current_zone_points) after the click. -/
def mark_zones_callback_rbuttondown (current_zone_points : List (ℚ × ℚ))
    (zones : List Zone) : List Zone × List (ℚ × ℚ) :=
  if 3 ≤ current_zone_points.length then (zones ++ [current_zone_points], [])
  else (zones, current_zone_points)

/-- One tick's input: clock value, observations, zones. -/
structure Tick where
  time : ℚ
  tracks : List Track
  zones : List Zone

/-- A sequence of `update_alerts` calls. -/
def run_ticks (st : AlertManager) (ticks : List Tick) : AlertManager :=
  ticks.foldl (fun s tk => (update_alerts tk.time tk.tracks tk.zones s).1) st

/-- Per-key view of the first loop of `update_alerts`: the effect of the
occurrence list of one track id on that id's ledger entry (proved equal to the
fold of `penetration_step` in `penetration_fold_alert_eq`). -/
def alerts_key_fold (now : ℚ) (zones : List Zone) (occs : List Track) (a0 : Option Alert) :
    Option Alert :=
  occs.foldl
    (fun a track =>
      let pen := check_zone_penetration track.bbox zones
      if pen.1 then
        match a with
        | none => some ⟨track.track_id, pen.2, now, now, true⟩
        | some alert => some { alert with last_seen_in_zone := now, is_active := true }
      else a)
    a0

/-- Per-key view of a whole `update_alerts` tick on the ledger: `occs` is the
sublist of observations carrying this key, `a0` the entry before the tick
(proved equal to the real tick in `update_alerts_alert_eq`). -/
def update_alert_for (now : ℚ) (zones : List Zone) (occs : List Track) (a0 : Option Alert) :
    Option Alert :=
  match alerts_key_fold now zones occs a0 with
  | none => none
  | some alert =>
    match occs with
    | [] => if ALARM_DURATION ≤ now - alert.last_seen_in_zone then none else some alert
    | current_track :: _ =>
      if (check_zone_penetration current_track.bbox zones).1 then some alert
      else if ALARM_DURATION ≤ now - alert.last_seen_in_zone then none
      else some { alert with is_active := false }

/-- Cross product of the edge vector of `e` with the vector from `e`'s start
to `p`: positive iff `p` lies strictly to the left of the directed edge. -/
def edge_cross (e : (ℚ × ℚ) × (ℚ × ℚ)) (p : ℚ × ℚ) : ℚ :=
  (e.2.1 - e.1.1) * (p.2 - e.1.2) - (e.2.2 - e.1.2) * (p.1 - e.1.1)

/-- The vertex list is a strictly convex polygon traversed counterclockwise:
vertices are pairwise distinct and every vertex lies strictly to the left of
every directed edge it is not an endpoint of. -/
def StrictlyConvexCCW (polygon : List (ℚ × ℚ)) : Prop :=
  polygon.Nodup ∧
  ∀ e ∈ polyEdges polygon, ∀ v ∈ polygon, v ≠ e.1 → v ≠ e.2 → 0 < edge_cross e v

/-- A strictly convex polygon, supplied in either traversal order. -/
def StrictlyConvex (polygon : List (ℚ × ℚ)) : Prop :=
  StrictlyConvexCCW polygon ∨ StrictlyConvexCCW polygon.reverse

/-- `q` is strictly interior to the convex polygon: strictly to the left of
every edge when the polygon is read in its counterclockwise orientation
(whichever of the two supplied orders that is). -/
def StrictlyInside (q : ℚ × ℚ) (polygon : List (ℚ × ℚ)) : Prop :=
  (StrictlyConvexCCW polygon → ∀ e ∈ polyEdges polygon, 0 < edge_cross e q) ∧
  (StrictlyConvexCCW polygon.reverse →
    ∀ e ∈ polyEdges polygon.reverse, 0 < edge_cross e q)

/-- `q` is strictly outside the axis-aligned bounding extent of the polygon's
vertices. -/
def StrictlyOutsideExtent (q : ℚ × ℚ) (polygon : List (ℚ × ℚ)) : Prop :=
  (∀ v ∈ polygon, q.1 < v.1) ∨ (∀ v ∈ polygon, v.1 < q.1) ∨
  (∀ v ∈ polygon, q.2 < v.2) ∨ (∀ v ∈ polygon, v.2 < q.2)

/-- Concrete counterclockwise triangle used to instantiate theorems. -/
def tri_ccw : List (ℚ × ℚ) := [(0, 0), (4, 0), (0, 4)]

/-- Proof-infrastructure predicate: the edge crosses level `y` upward through
the half-open window `(p1y, p2y]`. -/
def up_edge (y : ℚ) (e : (ℚ × ℚ) × (ℚ × ℚ)) : Bool :=
  decide (e.1.2 < y) && decide (y ≤ e.2.2)

/-- Proof-infrastructure predicate: the vertex sits at or above level `y`. -/
def above_level (y : ℚ) (v : ℚ × ℚ) : Bool := decide (y ≤ v.2)

/-! ## Structure of the edge list -/

theorem pathPairs_map_fst {α : Type} : ∀ l : List α, (pathPairs l).map Prod.fst = l.dropLast
  | [] => rfl
  | [_] => rfl
  | a :: b :: t => by
    simp only [pathPairs, List.map_cons, pathPairs_map_fst (b :: t)]
    rfl

theorem pathPairs_map_snd {α : Type} : ∀ l : List α, (pathPairs l).map Prod.snd = l.tail
  | [] => rfl
  | [_] => rfl
  | a :: b :: t => by
    simp only [pathPairs, List.map_cons, pathPairs_map_snd (b :: t)]
    rfl

theorem mem_pathPairs {α : Type} :
    ∀ (l : List α) (e : α × α), e ∈ pathPairs l → e.1 ∈ l ∧ e.2 ∈ l
  | [], e, h => by simp [pathPairs] at h
  | [_], e, h => by simp [pathPairs] at h
  | a :: b :: t, e, h => by
    rcases List.mem_cons.1 h with h | h
    · subst h
      exact ⟨List.mem_cons_self _ _, List.mem_cons_of_mem _ (List.mem_cons_self _ _)⟩
    · have := mem_pathPairs (b :: t) e h
      exact ⟨List.mem_cons_of_mem _ this.1, List.mem_cons_of_mem _ this.2⟩

theorem mem_polyEdges_fst {polygon : List (ℚ × ℚ)} {e} (h : e ∈ polyEdges polygon) :
    e.1 ∈ polygon := by
  match polygon with
  | [] => simp [polyEdges] at h
  | v0 :: t =>
    have h1 : e.1 ∈ (v0 :: t) ++ [v0] := (mem_pathPairs _ _ h).1
    rcases List.mem_append.1 h1 with h1 | h1
    · exact h1
    · simp only [List.mem_singleton] at h1
      subst h1; exact List.mem_cons_self _ _

theorem mem_polyEdges_snd {polygon : List (ℚ × ℚ)} {e} (h : e ∈ polyEdges polygon) :
    e.2 ∈ polygon := by
  match polygon with
  | [] => simp [polyEdges] at h
  | v0 :: t =>
    have h1 : e.2 ∈ (v0 :: t) ++ [v0] := (mem_pathPairs _ _ h).2
    rcases List.mem_append.1 h1 with h1 | h1
    · exact h1
    · simp only [List.mem_singleton] at h1
      subst h1; exact List.mem_cons_self _ _

theorem polyEdges_map_fst (v0 : ℚ × ℚ) (t : List (ℚ × ℚ)) :
    (polyEdges (v0 :: t)).map Prod.fst = v0 :: t := by
  show (pathPairs ((v0 :: t) ++ [v0])).map Prod.fst = v0 :: t
  rw [pathPairs_map_fst, List.dropLast_concat]

theorem polyEdges_map_snd (v0 : ℚ × ℚ) (t : List (ℚ × ℚ)) :
    (polyEdges (v0 :: t)).map Prod.snd = t ++ [v0] := by
  show (pathPairs ((v0 :: t) ++ [v0])).map Prod.snd = t ++ [v0]
  rw [pathPairs_map_snd]
  rfl

/-! ## Toggle parity of the ray-casting fold -/

theorem foldl_toggle {α : Type} (p : α → Bool) :
    ∀ (l : List α) (b : Bool),
      l.foldl (fun ins e => if p e then !ins else ins) b = (b != (l.countP p % 2 == 1))
  | [], b => by simp
  | a :: l, b => by
    rw [List.foldl_cons, foldl_toggle p l, List.countP_cons]
    rcases Nat.mod_two_eq_zero_or_one (l.countP p) with h | h <;>
      by_cases hp : p a <;>
      simp [hp, h, Nat.add_mod]

/-! ## The literal `xinters` data flow never reads an unbound value (C9) -/

theorem polygon_step_raw_eq (x y : ℚ) (b : Bool) (xo : Option ℚ) (e : (ℚ × ℚ) × (ℚ × ℚ)) :
    ∃ xo', polygon_step_raw x y (b, xo) e
      = some ((if edge_toggles x y e then !b else b), xo') := by
  obtain ⟨⟨p1x, p1y⟩, p2x, p2y⟩ := e
  by_cases h1 : min p1y p2y < y
  · by_cases h2 : y ≤ max p1y p2y
    · have hy : p1y ≠ p2y := by
        intro hyy
        subst hyy
        simp only [min_self] at h1
        simp only [max_self] at h2
        exact absurd (lt_of_lt_of_le h1 h2) (lt_irrefl _)
      by_cases h3 : x ≤ max p1x p2x
      · refine ⟨some ((y - p1y) * (p2x - p1x) / (p2y - p1y) + p1x), ?_⟩
        by_cases h4 : p1x = p2x
        · have h3' : x ≤ p2x := by
            rw [h4] at h3
            simpa using h3
          simp [polygon_step_raw, edge_toggles, h1, h2, h3, h3', h4, hy]
        · by_cases h5 : x ≤ (y - p1y) * (p2x - p1x) / (p2y - p1y) + p1x <;>
            simp [polygon_step_raw, edge_toggles, h1, h2, h3, h4, h5, hy]
      · exact ⟨xo, by simp [polygon_step_raw, edge_toggles, h1, h2, h3]⟩
    · exact ⟨xo, by simp [polygon_step_raw, edge_toggles, h1, h2]⟩
  · exact ⟨xo, by simp [polygon_step_raw, edge_toggles, h1]⟩

theorem foldlM_polygon_step_raw (x y : ℚ) :
    ∀ (es : List ((ℚ × ℚ) × (ℚ × ℚ))) (b : Bool) (xo : Option ℚ),
      ∃ xo', es.foldlM (polygon_step_raw x y) (b, xo)
        = some (es.foldl (fun ins e => if edge_toggles x y e then !ins else ins) b, xo')
  | [], b, xo => ⟨xo, rfl⟩
  | e :: es, b, xo => by
    obtain ⟨xo1, h1⟩ := polygon_step_raw_eq x y b xo e
    obtain ⟨xo', h2⟩ := foldlM_polygon_step_raw x y es (if edge_toggles x y e then !b else b) xo1
    exact ⟨xo', by rw [List.foldlM_cons, h1]; simpa using h2⟩

/-! ## Per-edge sign analysis of the toggle decision -/

/-- If the query ordinate crosses the edge's half-open `y`-window, the edge is
not horizontal. -/
theorem window_ne_of_window {p1y p2y y : ℚ} (hw1 : min p1y p2y < y) (hw2 : y ≤ max p1y p2y) :
    p1y ≠ p2y := by
  intro h
  subst h
  simp only [min_self] at hw1
  simp only [max_self] at hw2
  exact absurd (lt_of_lt_of_le hw1 hw2) (lt_irrefl _)

/-- Whenever the `y`-window guards pass, the edge's crossing abscissa lies
between the two endpoint abscissas. -/
theorem xinters_between (p1x p1y p2x p2y y : ℚ)
    (hw1 : min p1y p2y < y) (hw2 : y ≤ max p1y p2y) :
    min p1x p2x ≤ (y - p1y) * (p2x - p1x) / (p2y - p1y) + p1x ∧
    (y - p1y) * (p2x - p1x) / (p2y - p1y) + p1x ≤ max p1x p2x := by
  have hy : p1y ≠ p2y := window_ne_of_window hw1 hw2
  have hts : (y - p1y) * (p2x - p1x) / (p2y - p1y)
      = ((y - p1y) / (p2y - p1y)) * (p2x - p1x) := by
    rw [div_mul_eq_mul_div]
  have htb : 0 ≤ (y - p1y) / (p2y - p1y) ∧ (y - p1y) / (p2y - p1y) ≤ 1 := by
    rcases lt_or_gt_of_ne hy with hlt | hgt
    · have hD : 0 < p2y - p1y := by linarith
      have h1 : p1y < y := by
        have := min_eq_left hlt.le
        rw [this] at hw1
        exact hw1
      have h2 : y ≤ p2y := by
        have := max_eq_right hlt.le
        rw [this] at hw2
        exact hw2
      exact ⟨div_nonneg (by linarith) hD.le, (div_le_one hD).2 (by linarith)⟩
    · have hD : p2y - p1y < 0 := by linarith
      have h1 : p2y < y := by
        have := min_eq_right hgt.le
        rw [this] at hw1
        exact hw1
      have h2 : y ≤ p1y := by
        have := max_eq_left hgt.le
        rw [this] at hw2
        exact hw2
      constructor
      · exact div_nonneg_iff.2 (Or.inr ⟨by linarith, hD.le⟩)
      · rw [div_le_one_iff]
        exact Or.inr (Or.inr ⟨hD, by linarith⟩)
  obtain ⟨ht0, ht1⟩ := htb
  set t := (y - p1y) / (p2y - p1y) with htdef
  rw [hts]
  rcases le_or_lt 0 (p2x - p1x) with hs | hs
  · have hb1 : 0 ≤ t * (p2x - p1x) := mul_nonneg ht0 hs
    have hb2 : t * (p2x - p1x) ≤ p2x - p1x := by
      calc t * (p2x - p1x) ≤ 1 * (p2x - p1x) := mul_le_mul_of_nonneg_right ht1 hs
        _ = p2x - p1x := one_mul _
    constructor
    · have := min_le_left p1x p2x
      linarith
    · have := le_max_right p1x p2x
      linarith
  · have hb1 : t * (p2x - p1x) ≤ 0 := mul_nonpos_of_nonneg_of_nonpos ht0 hs.le
    have hb2 : p2x - p1x ≤ t * (p2x - p1x) := by
      nlinarith [mul_nonneg (sub_nonneg.2 ht1) (neg_nonneg.2 hs.le)]
    constructor
    · have := min_le_right p1x p2x
      linarith
    · have := le_max_left p1x p2x
      linarith

/-- Crossing abscissa minus query abscissa, as the edge cross product over the
edge's `y`-span. -/
theorem xinters_sub (p1x p1y p2x p2y x y : ℚ) (hy : p1y ≠ p2y) :
    (y - p1y) * (p2x - p1x) / (p2y - p1y) + p1x - x
      = ((p2x - p1x) * (y - p1y) - (p2y - p1y) * (x - p1x)) / (p2y - p1y) := by
  have h : p2y - p1y ≠ 0 := sub_ne_zero.2 (Ne.symm hy)
  field_simp
  ring

/-- An edge crossed upward by the ray's level, with the query point strictly
to its left, toggles. -/
theorem toggle_of_up {e : (ℚ × ℚ) × (ℚ × ℚ)} {x y : ℚ}
    (hup1 : e.1.2 < y) (hup2 : y ≤ e.2.2) (hc : 0 < edge_cross e (x, y)) :
    edge_toggles x y e = true := by
  obtain ⟨⟨p1x, p1y⟩, p2x, p2y⟩ := e
  simp only [edge_cross] at hc
  have hD : 0 < p2y - p1y := by simp only at hup1 hup2; linarith
  have hg1 : min p1y p2y < y := lt_of_le_of_lt (min_le_left _ _) hup1
  have hg2 : y ≤ max p1y p2y := le_trans hup2 (le_max_right _ _)
  by_cases h4 : p1x = p2x
  · have hx : x < p1x := by
      rw [h4] at hc ⊢
      nlinarith
    have hg3 : x ≤ max p1x p2x := le_trans hx.le (le_max_left _ _)
    have hx2 : x ≤ p2x := by
      rw [h4] at hx
      exact hx.le
    simp [edge_toggles, hg1, hg2, hg3, h4, hx2]
  · have hy : p1y ≠ p2y := window_ne_of_window hg1 hg2
    have hsub := xinters_sub p1x p1y p2x p2y x y hy
    have hxi : x < (y - p1y) * (p2x - p1x) / (p2y - p1y) + p1x := by
      have hpos : 0 < ((p2x - p1x) * (y - p1y) - (p2y - p1y) * (x - p1x)) / (p2y - p1y) :=
        div_pos (by simpa using hc) hD
      linarith [hsub, hpos]
    have hbet := xinters_between p1x p1y p2x p2y y hg1 hg2
    have hg3 : x ≤ max p1x p2x := le_trans hxi.le hbet.2
    simp [edge_toggles, hg1, hg2, hg3, h4, hxi.le]

/-- An edge crossed downward by the ray's level, with the query point strictly
to its left, does not toggle. -/
theorem not_toggle_of_down {e : (ℚ × ℚ) × (ℚ × ℚ)} {x y : ℚ}
    (hdn1 : e.2.2 < y) (hdn2 : y ≤ e.1.2) (hc : 0 < edge_cross e (x, y)) :
    edge_toggles x y e = false := by
  obtain ⟨⟨p1x, p1y⟩, p2x, p2y⟩ := e
  simp only [edge_cross] at hc
  have hD : p2y - p1y < 0 := by simp only at hdn1 hdn2; linarith
  by_cases h4 : p1x = p2x
  · have hx : p1x < x := by
      rw [h4] at hc ⊢
      nlinarith
    have hg3 : ¬ x ≤ max p1x p2x := by
      rw [h4, max_self]
      rw [h4] at hx
      exact not_le.2 hx
    simp [edge_toggles, hg3]
  · have hy : p1y ≠ p2y := by
      intro h
      subst h
      linarith
    have hsub := xinters_sub p1x p1y p2x p2y x y hy
    have hxi : (y - p1y) * (p2x - p1x) / (p2y - p1y) + p1x < x := by
      have hneg : ((p2x - p1x) * (y - p1y) - (p2y - p1y) * (x - p1x)) / (p2y - p1y) < 0 :=
        div_neg_of_pos_of_neg (by simpa using hc) hD
      linarith [hsub, hneg]
    simp [edge_toggles, h4, not_le.2 hxi, ite_self]

/-- Without the half-open `y`-window, no toggle. -/
theorem not_toggle_of_not_window {e : (ℚ × ℚ) × (ℚ × ℚ)} {x y : ℚ}
    (h : ¬(min e.1.2 e.2.2 < y ∧ y ≤ max e.1.2 e.2.2)) :
    edge_toggles x y e = false := by
  by_cases h1 : min e.1.2 e.2.2 < y
  · have h2 : ¬ y ≤ max e.1.2 e.2.2 := fun h2 => h ⟨h1, h2⟩
    simp [edge_toggles, h1, h2]
  · simp [edge_toggles, h1]

/-- C9: for every polygon (any vertex coordinates) and every query point, a
horizontal edge (`p1y == p2y`) can never satisfy both `y > min(p1y, p2y)` and
`y <= max(p1y, p2y)`, so whenever the toggle test `p1x == p2x or x <= xinters`
is reached, the current edge is non-horizontal and `xinters` was assigned on
the same loop iteration just before the read: the literal `xinters` data flow
(`check_point_in_polygon_raw`) never fails on an unbound or stale crossing
value and computes exactly the per-edge-local result. -/
theorem c9_no_stale_xinters (point : ℚ × ℚ) (polygon : List (ℚ × ℚ)) :
    check_point_in_polygon_raw point polygon
      = some (check_point_in_polygon point polygon) := by
  obtain ⟨xo', h⟩ :=
    foldlM_polygon_step_raw point.1 point.2 (polyEdges polygon) false none
  simp [check_point_in_polygon_raw, check_point_in_polygon, h]

/-! ## Counting qualifying edges around the closed vertex cycle -/

/-- Around a path that starts and ends as prescribed, the number of adjacent
pairs on which a boolean attribute flips has the parity of the end-to-end
flip. -/
theorem countP_changes_path {α : Type} (p : α → Bool) :
    ∀ (m : List α) (a c : α),
      (pathPairs (a :: m ++ [c])).countP (fun e => p e.1 != p e.2) % 2
        = if p a = p c then 0 else 1
  | [], a, c => by
    cases hpa : p a <;> cases hpc : p c <;> simp [pathPairs, hpa, hpc]
  | d :: m, a, c => by
    have hd := countP_changes_path p m d c
    show ((a, d) :: pathPairs (d :: m ++ [c])).countP (fun e => p e.1 != p e.2) % 2 = _
    rw [List.countP_cons]
    cases hpa : p a <;> cases hpd : p d <;> cases hpc : p c <;>
      simp [hpa, hpd, hpc] at hd ⊢ <;> omega

theorem exists_up_from_low {α : Type} (p : α → Bool) :
    ∀ (m : List α) (a c : α), p a = false →
      (p c = true ∨ ∃ z ∈ m, p z = true) →
      ∃ e ∈ pathPairs (a :: m ++ [c]), p e.1 = false ∧ p e.2 = true
  | [], a, c, ha, h => by
    rcases h with h | ⟨z, hz, _⟩
    · exact ⟨(a, c), by simp [pathPairs], ha, h⟩
    · simp at hz
  | d :: m, a, c, ha, h => by
    by_cases hd : p d = true
    · exact ⟨(a, d), List.mem_cons_self _ _, ha, hd⟩
    · have hd' : p d = false := by
        cases hv : p d
        · rfl
        · exact absurd hv hd
      have h' : p c = true ∨ ∃ z ∈ m, p z = true := by
        rcases h with h | ⟨z, hz, hzt⟩
        · exact Or.inl h
        · rcases List.mem_cons.1 hz with rfl | hz
          · exact absurd hzt hd
          · exact Or.inr ⟨z, hz, hzt⟩
      obtain ⟨e, he, hef⟩ := exists_up_from_low p m d c hd' h'
      exact ⟨e, List.mem_cons_of_mem _ he, hef⟩

theorem exists_up_from_high {α : Type} (p : α → Bool) :
    ∀ (m : List α) (a c : α), p c = true →
      (∃ z ∈ a :: m, p z = false) →
      ∃ e ∈ pathPairs (a :: m ++ [c]), p e.1 = false ∧ p e.2 = true
  | [], a, c, hc, h => by
    obtain ⟨z, hz, hzf⟩ := h
    have hza : z = a := by simpa using hz
    subst hza
    exact ⟨(z, c), by simp [pathPairs], hzf, hc⟩
  | d :: m, a, c, hc, h => by
    by_cases ha : p a = false
    · by_cases hd : p d = true
      · exact ⟨(a, d), List.mem_cons_self _ _, ha, hd⟩
      · have hd' : p d = false := by
          cases hv : p d
          · rfl
          · exact absurd hv hd
        obtain ⟨e, he, hef⟩ :=
          exists_up_from_high p m d c hc ⟨d, List.mem_cons_self _ _, hd'⟩
        exact ⟨e, List.mem_cons_of_mem _ he, hef⟩
    · have ha' : p a = true := by
        cases hv : p a
        · exact absurd hv ha
        · rfl
      have h' : ∃ z ∈ d :: m, p z = false := by
        obtain ⟨z, hz, hzf⟩ := h
        rcases List.mem_cons.1 hz with rfl | hz
        · rw [ha'] at hzf
          exact absurd hzf (by simp)
        · exact ⟨z, hz, hzf⟩
      obtain ⟨e, he, hef⟩ := exists_up_from_high p m d c hc h'
      exact ⟨e, List.mem_cons_of_mem _ he, hef⟩

theorem countP_le_one_of_uniq {α : Type} (p : α → Bool) :
    ∀ (l : List α), l.Nodup →
      (∀ x ∈ l, ∀ z ∈ l, p x = true → p z = true → x = z) → l.countP p ≤ 1
  | [], _, _ => by simp
  | e :: t, hnd, hu => by
    rw [List.countP_cons]
    by_cases hp : p e = true
    · have ht : t.countP p = 0 := by
        rw [List.countP_eq_zero]
        intro z hz hpz
        have hze := hu z (List.mem_cons_of_mem _ hz) e (List.mem_cons_self _ _) hpz hp
        exact (List.nodup_cons.1 hnd).1 (hze ▸ hz)
      simp [hp, ht]
    · have ht := countP_le_one_of_uniq p t (List.nodup_cons.1 hnd).2
        (fun z hz w hw => hu z (List.mem_cons_of_mem _ hz) w (List.mem_cons_of_mem _ hw))
      rw [if_neg hp]
      omega

/-- The half-open `y`-window is hit iff exactly one endpoint is at or above
the level: the edge either crosses upward or downward. -/
theorem window_iff_up_or_down (p1y p2y y : ℚ) :
    (min p1y p2y < y ∧ y ≤ max p1y p2y)
      ↔ (p1y < y ∧ y ≤ p2y) ∨ (p2y < y ∧ y ≤ p1y) := by
  rcases le_total p1y p2y with h | h
  · rw [min_eq_left h, max_eq_right h]
    constructor
    · rintro ⟨h1, h2⟩
      exact Or.inl ⟨h1, h2⟩
    · rintro (⟨h1, h2⟩ | ⟨h1, h2⟩)
      · exact ⟨h1, h2⟩
      · exact ⟨by linarith, by linarith⟩
  · rw [min_eq_right h, max_eq_left h]
    constructor
    · rintro ⟨h1, h2⟩
      exact Or.inr ⟨h1, h2⟩
    · rintro (⟨h1, h2⟩ | ⟨h1, h2⟩)
      · exact ⟨by linarith, by linarith⟩
      · exact ⟨h1, h2⟩

/-- The even-odd fold equals the parity of the number of toggling edges. -/
theorem check_eq_countP (point : ℚ × ℚ) (polygon : List (ℚ × ℚ)) :
    check_point_in_polygon point polygon
      = ((polyEdges polygon).countP (edge_toggles point.1 point.2) % 2 == 1) := by
  rw [check_point_in_polygon, foldl_toggle (edge_toggles point.1 point.2)]
  cases h : ((polyEdges polygon).countP (edge_toggles point.1 point.2) % 2 == 1) <;> simp [h]

theorem exists_max_snd : ∀ l : List (ℚ × ℚ), l ≠ [] → ∃ m ∈ l, ∀ v ∈ l, v.2 ≤ m.2
  | [], h => absurd rfl h
  | [a], _ => ⟨a, List.mem_singleton_self a, by
      intro v hv
      rw [List.mem_singleton.1 hv]⟩
  | a :: b :: t, _ => by
    obtain ⟨m, hm, hmax⟩ := exists_max_snd (b :: t) (by simp)
    rcases le_total a.2 m.2 with h | h
    · refine ⟨m, List.mem_cons_of_mem _ hm, ?_⟩
      intro v hv
      rcases List.mem_cons.1 hv with rfl | hv
      · exact h
      · exact hmax v hv
    · refine ⟨a, List.mem_cons_self _ _, ?_⟩
      intro v hv
      rcases List.mem_cons.1 hv with rfl | hv
      · exact le_refl _
      · exact le_trans (hmax v hv) h

theorem exists_min_snd : ∀ l : List (ℚ × ℚ), l ≠ [] → ∃ m ∈ l, ∀ v ∈ l, m.2 ≤ v.2
  | [], h => absurd rfl h
  | [a], _ => ⟨a, List.mem_singleton_self a, by
      intro v hv
      rw [List.mem_singleton.1 hv]⟩
  | a :: b :: t, _ => by
    obtain ⟨m, hm, hmin⟩ := exists_min_snd (b :: t) (by simp)
    rcases le_total m.2 a.2 with h | h
    · refine ⟨m, List.mem_cons_of_mem _ hm, ?_⟩
      intro v hv
      rcases List.mem_cons.1 hv with rfl | hv
      · exact h
      · exact hmin v hv
    · refine ⟨a, List.mem_cons_self _ _, ?_⟩
      intro v hv
      rcases List.mem_cons.1 hv with rfl | hv
      · exact le_refl _
      · exact le_trans h (hmin v hv)

theorem exists_ne_of_nodup {l : List (ℚ × ℚ)} (hnd : l.Nodup) (hlen : 2 ≤ l.length)
    (a : ℚ × ℚ) : ∃ v ∈ l, v ≠ a := by
  match l, hlen with
  | x :: z :: t, _ =>
    by_cases hx : x = a
    · refine ⟨z, List.mem_cons_of_mem _ (List.mem_cons_self _ _), ?_⟩
      intro hz
      have hxz : x ≠ z := by
        intro h
        exact (List.nodup_cons.1 hnd).1 (h ▸ List.mem_cons_self _ _)
      exact hxz (hx.trans hz.symm)
    · exact ⟨x, List.mem_cons_self _ _, hx⟩

theorem exists_ne_ne_of_nodup {l : List (ℚ × ℚ)} (hnd : l.Nodup) (hlen : 3 ≤ l.length)
    (a b : ℚ × ℚ) : ∃ v ∈ l, v ≠ a ∧ v ≠ b := by
  match l, hlen with
  | x :: z :: w :: t, _ =>
    have hxz : x ≠ z := by
      intro h
      exact (List.nodup_cons.1 hnd).1 (h ▸ List.mem_cons_self _ _)
    have hxw : x ≠ w := by
      intro h
      exact (List.nodup_cons.1 hnd).1
        (h ▸ List.mem_cons_of_mem _ (List.mem_cons_self _ _))
    have hzw : z ≠ w := by
      intro h
      exact (List.nodup_cons.1 (List.nodup_cons.1 hnd).2).1 (h ▸ List.mem_cons_self _ _)
    have hwmem : w ∈ x :: z :: w :: t :=
      List.mem_cons_of_mem _ (List.mem_cons_of_mem _ (List.mem_cons_self _ _))
    have hzmem : z ∈ x :: z :: w :: t := List.mem_cons_of_mem _ (List.mem_cons_self _ _)
    by_cases hxa : x = a
    · subst hxa
      by_cases hzb : z = b
      · subst hzb
        exact ⟨w, hwmem, Ne.symm hxw, Ne.symm hzw⟩
      · exact ⟨z, hzmem, Ne.symm hxz, hzb⟩
    · by_cases hxb : x = b
      · subst hxb
        by_cases hza : z = a
        · subst hza
          exact ⟨w, hwmem, Ne.symm hzw, Ne.symm hxw⟩
        · exact ⟨z, hzmem, hza, Ne.symm hxz⟩
      · exact ⟨x, List.mem_cons_self _ _, hxa, hxb⟩

/-- In a strictly convex polygon no edge is degenerate. -/
theorem polyEdges_ne {polygon : List (ℚ × ℚ)} (h3 : 3 ≤ polygon.length)
    (hcv : StrictlyConvexCCW polygon) : ∀ e ∈ polyEdges polygon, e.1 ≠ e.2 := by
  obtain ⟨hnd, hglob⟩ := hcv
  intro e he heq
  obtain ⟨v, hv, hne⟩ := exists_ne_of_nodup hnd (by omega) e.1
  have h := hglob e he v hv hne (fun hx => hne (hx.trans heq.symm))
  have hz : edge_cross e v = 0 := by
    rw [edge_cross, ← heq]
    ring
  linarith

/-- Local convexity: at the shared vertex of an incoming and an outgoing edge
of a strictly convex polygon, the traversal turns strictly left. -/
theorem local_turn {polygon : List (ℚ × ℚ)} (h3 : 3 ≤ polygon.length)
    (hcv : StrictlyConvexCCW polygon) {ein eout : (ℚ × ℚ) × (ℚ × ℚ)}
    (hinE : ein ∈ polyEdges polygon) (houtE : eout ∈ polyEdges polygon)
    (hshare : ein.2 = eout.1) :
    0 < (ein.2.1 - ein.1.1) * (eout.2.2 - ein.2.2)
        - (ein.2.2 - ein.1.2) * (eout.2.1 - ein.2.1) := by
  have hne_out : eout.1 ≠ eout.2 := polyEdges_ne h3 hcv eout houtE
  obtain ⟨hnd, hglob⟩ := hcv
  have hw_mem : eout.2 ∈ polygon := mem_polyEdges_snd houtE
  have hw_ne_m : eout.2 ≠ ein.2 := by
    rw [hshare]
    exact Ne.symm hne_out
  by_cases hwu : eout.2 = ein.1
  · obtain ⟨r, hr, hra, hrb⟩ := exists_ne_ne_of_nodup hnd h3 ein.1 ein.2
    have h1 := hglob ein hinE r hr hra hrb
    have h2 := hglob eout houtE r hr (fun h => hrb (h.trans hshare.symm))
      (fun h => hra (h.trans hwu))
    have hsum : edge_cross ein r + edge_cross eout r = 0 := by
      obtain ⟨u, m⟩ := ein
      obtain ⟨m', w⟩ := eout
      simp only at hshare hwu
      subst hshare
      subst hwu
      simp only [edge_cross]
      ring
    linarith
  · have h := hglob ein hinE eout.2 hw_mem hwu hw_ne_m
    have heq2 : edge_cross ein eout.2
        = (ein.2.1 - ein.1.1) * (eout.2.2 - ein.2.2)
          - (ein.2.2 - ein.1.2) * (eout.2.1 - ein.2.1) := by
      rw [edge_cross]
      ring
    linarith

/-- In a strictly convex polygon, at most one edge crosses any horizontal
level upward. -/
theorem countP_up_le_one {polygon : List (ℚ × ℚ)} (h3 : 3 ≤ polygon.length)
    (hcv : StrictlyConvexCCW polygon) (y : ℚ) :
    (polyEdges polygon).countP (up_edge y) ≤ 1 := by
  obtain ⟨hnd, hglob⟩ := hcv
  match polygon, h3, hnd, hglob with
  | v0 :: t, h3, hnd, hglob =>
  have hfstnd : ((polyEdges (v0 :: t)).map Prod.fst).Nodup := by
    rw [polyEdges_map_fst]
    exact hnd
  have hsndnd : ((polyEdges (v0 :: t)).map Prod.snd).Nodup := by
    rw [polyEdges_map_snd]
    exact List.nodup_middle.2 (by simpa using hnd)
  apply countP_le_one_of_uniq
  · exact List.Nodup.of_map _ hfstnd
  · intro e he e' he' hpe hpe'
    by_contra hne
    simp only [up_edge, Bool.and_eq_true, decide_eq_true_eq] at hpe hpe'
    obtain ⟨ha, hb⟩ := hpe
    obtain ⟨hc, hd⟩ := hpe'
    have hs1 : e.1 ≠ e'.1 := fun h => hne (List.inj_on_of_nodup_map hfstnd he he' h)
    have hs2 : e.2 ≠ e'.2 := fun h => hne (List.inj_on_of_nodup_map hsndnd he he' h)
    have hy1 : e.1 ≠ e'.2 := by
      intro h
      rw [← h] at hd
      exact absurd hd (not_le.2 ha)
    have hy2 : e'.1 ≠ e.2 := by
      intro h
      rw [← h] at hb
      exact absurd hb (not_le.2 hc)
    have hA1 : 0 < edge_cross e e'.1 :=
      hglob e he e'.1 (mem_polyEdges_fst he') (Ne.symm hs1) hy2
    have hA2 : 0 < edge_cross e e'.2 :=
      hglob e he e'.2 (mem_polyEdges_snd he') (Ne.symm hy1) (Ne.symm hs2)
    have hB1 : 0 < edge_cross e' e.1 :=
      hglob e' he' e.1 (mem_polyEdges_fst he) hs1 hy1
    have hB2 : 0 < edge_cross e' e.2 :=
      hglob e' he' e.2 (mem_polyEdges_snd he) (Ne.symm hy2) hs2
    obtain ⟨⟨a1, a2⟩, b1, b2⟩ := e
    obtain ⟨⟨c1, c2⟩, d1, d2⟩ := e'
    simp only [edge_cross] at hA1 hA2 hB1 hB2
    simp only at ha hb hc hd
    have key : (d2 - y) * ((b1 - a1) * (c2 - a2) - (b2 - a2) * (c1 - a1))
        + (y - c2) * ((b1 - a1) * (d2 - a2) - (b2 - a2) * (d1 - a1))
        + ((b2 - y) * ((d1 - c1) * (a2 - c2) - (d2 - c2) * (a1 - c1))
        + (y - a2) * ((d1 - c1) * (b2 - c2) - (d2 - c2) * (b1 - c1))) = 0 := by
      ring
    have hp1 : 0 ≤ (d2 - y) * ((b1 - a1) * (c2 - a2) - (b2 - a2) * (c1 - a1)) :=
      mul_nonneg (by linarith) hA1.le
    have hp2 : 0 < (y - c2) * ((b1 - a1) * (d2 - a2) - (b2 - a2) * (d1 - a1)) :=
      mul_pos (by linarith) hA2
    have hp3 : 0 ≤ (b2 - y) * ((d1 - c1) * (a2 - c2) - (d2 - c2) * (a1 - c1)) :=
      mul_nonneg (by linarith) hB1.le
    have hp4 : 0 < (y - a2) * ((d1 - c1) * (b2 - c2) - (d2 - c2) * (b1 - c1)) :=
      mul_pos (by linarith) hB2
    linarith

/-- For a point strictly left of every edge of a strictly convex polygon, at
least one edge crosses its level upward. -/
theorem countP_up_pos {polygon : List (ℚ × ℚ)} (h3 : 3 ≤ polygon.length)
    (hcv : StrictlyConvexCCW polygon) {x y : ℚ}
    (hin : ∀ e ∈ polyEdges polygon, 0 < edge_cross e (x, y)) :
    0 < (polyEdges polygon).countP (up_edge y) := by
  have hcv' := hcv
  obtain ⟨hnd, hglob⟩ := hcv
  match polygon, h3, hnd, hglob, hin, hcv' with
  | v0 :: t, h3, hnd, hglob, hin, hcv' =>
  -- some vertex lies at or above the level
  have hplus : ∃ v ∈ v0 :: t, y ≤ v.2 := by
    by_contra hall
    push_neg at hall
    obtain ⟨m, hm, hmax⟩ := exists_max_snd (v0 :: t) (by simp)
    have hm1 : m ∈ (polyEdges (v0 :: t)).map Prod.fst := by
      rw [polyEdges_map_fst]
      exact hm
    obtain ⟨eout, houtE, heq1⟩ := List.mem_map.1 hm1
    have hm2 : m ∈ (polyEdges (v0 :: t)).map Prod.snd := by
      rw [polyEdges_map_snd]
      rcases List.mem_cons.1 hm with rfl | h
      · exact List.mem_append_right _ (List.mem_singleton_self _)
      · exact List.mem_append_left _ h
    obtain ⟨ein, hinE, heq2⟩ := List.mem_map.1 hm2
    have hlocal := local_turn h3 hcv' hinE houtE (heq2.trans heq1.symm)
    have hu := hin ein hinE
    have hw := hin eout houtE
    have hu2 : ein.1.2 ≤ ein.2.2 := by
      rw [heq2]
      exact hmax ein.1 (mem_polyEdges_fst hinE)
    have hw2 : eout.2.2 ≤ ein.2.2 := by
      rw [heq2]
      exact hmax eout.2 (mem_polyEdges_snd houtE)
    have hp2 : ein.2.2 < y := by
      rw [heq2]
      exact hall m hm
    have hsh : eout.1 = ein.2 := heq1.trans heq2.symm
    simp only [edge_cross] at hu hw
    rw [hsh] at hw
    have key : (eout.2.2 - ein.2.2)
          * ((ein.2.1 - ein.1.1) * (y - ein.1.2) - (ein.2.2 - ein.1.2) * (x - ein.1.1))
        - (ein.2.2 - ein.1.2)
          * ((eout.2.1 - ein.2.1) * (y - ein.2.2) - (eout.2.2 - ein.2.2) * (x - ein.2.1))
        = (y - ein.2.2)
          * ((ein.2.1 - ein.1.1) * (eout.2.2 - ein.2.2)
             - (ein.2.2 - ein.1.2) * (eout.2.1 - ein.2.1)) := by
      ring
    have t1 : 0 ≤ (ein.2.2 - eout.2.2)
        * ((ein.2.1 - ein.1.1) * (y - ein.1.2) - (ein.2.2 - ein.1.2) * (x - ein.1.1)) :=
      mul_nonneg (by linarith) hu.le
    have t2 : 0 ≤ (ein.2.2 - ein.1.2)
        * ((eout.2.1 - ein.2.1) * (y - ein.2.2) - (eout.2.2 - ein.2.2) * (x - ein.2.1)) :=
      mul_nonneg (by linarith) hw.le
    have t3 : 0 < (y - ein.2.2)
        * ((ein.2.1 - ein.1.1) * (eout.2.2 - ein.2.2)
           - (ein.2.2 - ein.1.2) * (eout.2.1 - ein.2.1)) :=
      mul_pos (by linarith) hlocal
    linarith
  -- some vertex lies strictly below the level
  have hminus : ∃ v ∈ v0 :: t, v.2 < y := by
    by_contra hall
    push_neg at hall
    obtain ⟨m, hm, hmin⟩ := exists_min_snd (v0 :: t) (by simp)
    have hm1 : m ∈ (polyEdges (v0 :: t)).map Prod.fst := by
      rw [polyEdges_map_fst]
      exact hm
    obtain ⟨eout, houtE, heq1⟩ := List.mem_map.1 hm1
    have hm2 : m ∈ (polyEdges (v0 :: t)).map Prod.snd := by
      rw [polyEdges_map_snd]
      rcases List.mem_cons.1 hm with rfl | h
      · exact List.mem_append_right _ (List.mem_singleton_self _)
      · exact List.mem_append_left _ h
    obtain ⟨ein, hinE, heq2⟩ := List.mem_map.1 hm2
    have hlocal := local_turn h3 hcv' hinE houtE (heq2.trans heq1.symm)
    have hu := hin ein hinE
    have hw := hin eout houtE
    have hu2 : ein.2.2 ≤ ein.1.2 := by
      rw [heq2]
      exact hmin ein.1 (mem_polyEdges_fst hinE)
    have hw2 : ein.2.2 ≤ eout.2.2 := by
      rw [heq2]
      exact hmin eout.2 (mem_polyEdges_snd houtE)
    have hp2 : y ≤ ein.2.2 := by
      rw [heq2]
      exact hall m hm
    have hsh : eout.1 = ein.2 := heq1.trans heq2.symm
    simp only [edge_cross] at hu hw
    rw [hsh] at hw
    have key : (eout.2.2 - ein.2.2)
          * ((ein.2.1 - ein.1.1) * (y - ein.1.2) - (ein.2.2 - ein.1.2) * (x - ein.1.1))
        - (ein.2.2 - ein.1.2)
          * ((eout.2.1 - ein.2.1) * (y - ein.2.2) - (eout.2.2 - ein.2.2) * (x - ein.2.1))
        = (y - ein.2.2)
          * ((ein.2.1 - ein.1.1) * (eout.2.2 - ein.2.2)
             - (ein.2.2 - ein.1.2) * (eout.2.1 - ein.2.1)) := by
      ring
    have t1 : 0 ≤ (eout.2.2 - ein.2.2)
        * ((ein.2.1 - ein.1.1) * (y - ein.1.2) - (ein.2.2 - ein.1.2) * (x - ein.1.1)) :=
      mul_nonneg (by linarith) hu.le
    have t2 : 0 ≤ (ein.1.2 - ein.2.2)
        * ((eout.2.1 - ein.2.1) * (y - ein.2.2) - (eout.2.2 - ein.2.2) * (x - ein.2.1)) :=
      mul_nonneg (by linarith) hw.le
    have t4 : (y - ein.2.2)
        * ((ein.2.1 - ein.1.1) * (eout.2.2 - ein.2.2)
           - (ein.2.2 - ein.1.2) * (eout.2.1 - ein.2.1)) ≤ 0 :=
      mul_nonpos_iff.2 (Or.inr ⟨by linarith, hlocal.le⟩)
    have hz1 : (eout.2.2 - ein.2.2)
        * ((ein.2.1 - ein.1.1) * (y - ein.1.2) - (ein.2.2 - ein.1.2) * (x - ein.1.1)) = 0 := by
      linarith
    have hz2 : (ein.1.2 - ein.2.2)
        * ((eout.2.1 - ein.2.1) * (y - ein.2.2) - (eout.2.2 - ein.2.2) * (x - ein.2.1)) = 0 := by
      linarith
    have hww : eout.2.2 - ein.2.2 = 0 := by
      rcases mul_eq_zero.1 hz1 with h | h
      · exact h
      · linarith
    have huu : ein.1.2 - ein.2.2 = 0 := by
      rcases mul_eq_zero.1 hz2 with h | h
      · exact h
      · linarith
    have hzero : (ein.2.1 - ein.1.1) * (eout.2.2 - ein.2.2)
        - (ein.2.2 - ein.1.2) * (eout.2.1 - ein.2.1) = 0 := by
      rw [hww]
      have h5 : ein.2.2 - ein.1.2 = 0 := by linarith
      rw [h5]
      ring
    linarith
  -- assemble: the boolean attribute `above_level` flips upward somewhere
  rw [List.countP_pos_iff]
  obtain ⟨vp, hvp, hvp2⟩ := hplus
  obtain ⟨vm, hvm, hvm2⟩ := hminus
  have hmain : ∃ e ∈ pathPairs (v0 :: t ++ [v0]),
      above_level y e.1 = false ∧ above_level y e.2 = true := by
    by_cases h0 : above_level y v0 = false
    · apply exists_up_from_low (above_level y) t v0 v0 h0
      right
      rcases List.mem_cons.1 hvp with rfl | hvp'
      · exact absurd (by simpa [above_level] using h0) (not_lt.2 hvp2)
      · exact ⟨vp, hvp', by simp [above_level, hvp2]⟩
    · have h0' : above_level y v0 = true := by
        cases hv : above_level y v0
        · exact absurd hv h0
        · rfl
      apply exists_up_from_high (above_level y) t v0 v0 h0'
      exact ⟨vm, hvm, by simp [above_level, not_le.2 hvm2]⟩
  obtain ⟨e, he, hef, hes⟩ := hmain
  refine ⟨e, he, ?_⟩
  simp only [above_level, decide_eq_true_eq] at hes
  have hef' : e.1.2 < y := by
    by_contra hh
    simp [above_level, not_lt.1 hh] at hef
  simp [up_edge, hef', hes]

/-- Interior point, counterclockwise orientation: the even-odd ray cast
answers `true`. -/
theorem check_true_of_inside_ccw {polygon : List (ℚ × ℚ)} (h3 : 3 ≤ polygon.length)
    (hcv : StrictlyConvexCCW polygon) {x y : ℚ}
    (hin : ∀ e ∈ polyEdges polygon, 0 < edge_cross e (x, y)) :
    check_point_in_polygon (x, y) polygon = true := by
  rw [check_eq_countP]
  have hcong : (polyEdges polygon).countP (edge_toggles x y)
      = (polyEdges polygon).countP (up_edge y) := by
    apply List.countP_congr
    intro e he
    by_cases hw : min e.1.2 e.2.2 < y ∧ y ≤ max e.1.2 e.2.2
    · rcases (window_iff_up_or_down e.1.2 e.2.2 y).1 hw with ⟨h1, h2⟩ | ⟨h1, h2⟩
      · rw [toggle_of_up h1 h2 (hin e he)]
        simp [up_edge, h1, h2]
      · rw [not_toggle_of_down h1 h2 (hin e he)]
        simp [up_edge, not_lt.2 h2]
    · rw [not_toggle_of_not_window hw]
      rcases not_and_or.1 hw with h | h
      · have h' : ¬(e.1.2 < y) := fun hlt => h (lt_of_le_of_lt (min_le_left _ _) hlt)
        simp [up_edge, h']
      · have h' : ¬(y ≤ e.2.2) := fun hle => h (le_trans hle (le_max_right _ _))
        simp [up_edge, h']
  rw [hcong]
  have hone : (polyEdges polygon).countP (up_edge y) = 1 :=
    le_antisymm (countP_up_le_one h3 hcv y) (countP_up_pos h3 hcv hin)
  rw [hone]
  rfl

/-- Far to the left of both endpoints, an edge toggles exactly when the
`above_level` attribute flips across it. -/
theorem toggle_eq_flip_of_far_left {e : (ℚ × ℚ) × (ℚ × ℚ)} {x y : ℚ}
    (hx1 : x < e.1.1) (hx2 : x < e.2.1) :
    edge_toggles x y e = (above_level y e.1 != above_level y e.2) := by
  by_cases hw : min e.1.2 e.2.2 < y ∧ y ≤ max e.1.2 e.2.2
  · have hy := window_ne_of_window hw.1 hw.2
    have hbet := xinters_between e.1.1 e.1.2 e.2.1 e.2.2 y hw.1 hw.2
    have hxi : x ≤ (y - e.1.2) * (e.2.1 - e.1.1) / (e.2.2 - e.1.2) + e.1.1 :=
      le_trans (lt_min hx1 hx2).le hbet.1
    have hg3 : x ≤ max e.1.1 e.2.1 := le_trans hx1.le (le_max_left _ _)
    have ht : edge_toggles x y e = true := by
      simp [edge_toggles, hw.1, hw.2, hg3, hxi]
    rw [ht]
    rcases (window_iff_up_or_down e.1.2 e.2.2 y).1 hw with ⟨h1, h2⟩ | ⟨h1, h2⟩
    · simp [above_level, not_le.2 h1, h2]
    · simp [above_level, not_le.2 h1, h2]
  · rw [not_toggle_of_not_window hw]
    cases hv1 : above_level y e.1 <;> cases hv2 : above_level y e.2 <;>
      simp only [above_level, decide_eq_true_eq, decide_eq_false_iff_not] at hv1 hv2 <;>
      first
      | rfl
      | (exfalso
         exact hw ((window_iff_up_or_down e.1.2 e.2.2 y).2 (by
           first
           | exact Or.inl ⟨not_le.1 hv1, hv2⟩
           | exact Or.inr ⟨not_le.1 hv2, hv1⟩)))

/-- A point strictly outside the polygon's bounding extent answers `false`,
for every polygon whatsoever. -/
theorem check_false_of_outside_extent {polygon : List (ℚ × ℚ)} {q : ℚ × ℚ}
    (hout : StrictlyOutsideExtent q polygon) :
    check_point_in_polygon q polygon = false := by
  obtain ⟨x, y⟩ := q
  rw [check_eq_countP]
  match polygon with
  | [] => rfl
  | v0 :: t =>
  rcases hout with h | h | h | h
  · -- x strictly left of every vertex: every windowed edge toggles, evenly many
    have hcong : (polyEdges (v0 :: t)).countP (edge_toggles x y)
        = (polyEdges (v0 :: t)).countP (fun e => above_level y e.1 != above_level y e.2) := by
      apply List.countP_congr
      intro e he
      have hh1 : x < e.1.1 := h e.1 (mem_polyEdges_fst he)
      have hh2 : x < e.2.1 := h e.2 (mem_polyEdges_snd he)
      rw [toggle_eq_flip_of_far_left hh1 hh2]
    rw [hcong]
    have hpar := countP_changes_path (above_level y) t v0 v0
    have : (polyEdges (v0 :: t)).countP (fun e => above_level y e.1 != above_level y e.2) % 2
        = 0 := by
      show (pathPairs (v0 :: t ++ [v0])).countP _ % 2 = 0
      rw [hpar]
      simp
    rw [this]
    rfl
  · -- x strictly right of every vertex: the `x <= max(p1x,p2x)` guard kills all
    have hz : (polyEdges (v0 :: t)).countP (edge_toggles x y) = 0 := by
      rw [List.countP_eq_zero]
      intro e he
      have h1 := h e.1 (mem_polyEdges_fst he)
      have h2 := h e.2 (mem_polyEdges_snd he)
      have hg : ¬ x ≤ max e.1.1 e.2.1 := by
        rcases max_cases e.1.1 e.2.1 with ⟨hm, _⟩ | ⟨hm, _⟩ <;> rw [hm] <;>
          simp only at h1 h2 <;> exact not_le.2 (by linarith)
      simp [edge_toggles, hg]
    rw [hz]
    rfl
  · -- y strictly below every vertex: the `y > min` guard kills all
    have hz : (polyEdges (v0 :: t)).countP (edge_toggles x y) = 0 := by
      rw [List.countP_eq_zero]
      intro e he
      have h1 : y < e.1.2 := h e.1 (mem_polyEdges_fst he)
      have h2 : y < e.2.2 := h e.2 (mem_polyEdges_snd he)
      simp only [Bool.not_eq_true]
      apply not_toggle_of_not_window
      rintro ⟨hw1, _⟩
      rcases min_cases e.1.2 e.2.2 with ⟨hm, _⟩ | ⟨hm, _⟩ <;> rw [hm] at hw1 <;>
        simp only at h1 h2 <;> linarith
    rw [hz]
    rfl
  · -- y strictly above every vertex: the `y <= max` guard kills all
    have hz : (polyEdges (v0 :: t)).countP (edge_toggles x y) = 0 := by
      rw [List.countP_eq_zero]
      intro e he
      have h1 : e.1.2 < y := h e.1 (mem_polyEdges_fst he)
      have h2 : e.2.2 < y := h e.2 (mem_polyEdges_snd he)
      simp only [Bool.not_eq_true]
      apply not_toggle_of_not_window
      rintro ⟨_, hw2⟩
      rcases max_cases e.1.2 e.2.2 with ⟨hm, _⟩ | ⟨hm, _⟩ <;> rw [hm] at hw2 <;>
        simp only at h1 h2 <;> linarith
    rw [hz]
    rfl

/-! ## Reversing the vertex order does not change the ray cast -/

theorem pathPairs_snoc {α : Type} : ∀ (l : List α) (v a : α),
    pathPairs ((l ++ [v]) ++ [a]) = pathPairs (l ++ [v]) ++ [(v, a)]
  | [], _, _ => rfl
  | [_], _, _ => rfl
  | x :: z :: l, v, a => by
    show (x, z) :: pathPairs (((z :: l) ++ [v]) ++ [a])
      = ((x, z) :: pathPairs ((z :: l) ++ [v])) ++ [(v, a)]
    rw [pathPairs_snoc (z :: l) v a]
    rfl

theorem pathPairs_reverse {α : Type} : ∀ l : List α,
    pathPairs l.reverse = ((pathPairs l).map (fun e => (e.2, e.1))).reverse
  | [] => rfl
  | [_] => rfl
  | x :: z :: l => by
    have IH := pathPairs_reverse (z :: l)
    have h1 : (x :: z :: l).reverse = (l.reverse ++ [z]) ++ [x] := by
      simp
    rw [h1, pathPairs_snoc]
    have h2 : l.reverse ++ [z] = (z :: l).reverse := by
      simp
    rw [h2, IH]
    show _ = ((((x, z) :: pathPairs (z :: l)).map (fun e => (e.2, e.1)))).reverse
    rw [List.map_cons, List.reverse_cons]

theorem edge_toggles_swap (x y : ℚ) (e : (ℚ × ℚ) × (ℚ × ℚ)) :
    edge_toggles x y (e.2, e.1) = edge_toggles x y e := by
  obtain ⟨⟨p1x, p1y⟩, p2x, p2y⟩ := e
  by_cases hw : min p1y p2y < y ∧ y ≤ max p1y p2y
  · have hy : p1y ≠ p2y := window_ne_of_window hw.1 hw.2
    have hxi_eq : (y - p2y) * (p1x - p2x) / (p1y - p2y) + p2x
        = (y - p1y) * (p2x - p1x) / (p2y - p1y) + p1x := by
      have hne1 : p1y - p2y ≠ 0 := sub_ne_zero.2 hy
      have hne2 : p2y - p1y ≠ 0 := sub_ne_zero.2 (Ne.symm hy)
      field_simp
      ring
    by_cases h4 : p1x = p2x
    · simp [edge_toggles, min_comm p2y p1y, max_comm p2y p1y, max_comm p2x p1x,
        hxi_eq, h4]
    · have h4' : ¬ p2x = p1x := fun h => h4 h.symm
      simp [edge_toggles, min_comm p2y p1y, max_comm p2y p1y, max_comm p2x p1x,
        hxi_eq, h4, h4']
  · have hw' : ¬(min p2y p1y < y ∧ y ≤ max p2y p1y) := by
      rw [min_comm p2y p1y, max_comm p2y p1y]
      exact hw
    rw [@not_toggle_of_not_window ((p2x, p2y), (p1x, p1y)) x y hw',
      @not_toggle_of_not_window ((p1x, p1y), (p2x, p2y)) x y hw]

theorem countP_polyEdges_reverse (x y : ℚ) :
    ∀ polygon : List (ℚ × ℚ),
      (polyEdges polygon.reverse).countP (edge_toggles x y)
        = (polyEdges polygon).countP (edge_toggles x y)
  | [] => rfl
  | [_] => rfl
  | v0 :: t1 :: t' => by
    rcases hrev : (t1 :: t').reverse with _ | ⟨r, u⟩
    · exact absurd hrev (by simp)
    have hrev' : (v0 :: t1 :: t').reverse = r :: (u ++ [v0]) := by
      rw [List.reverse_cons, hrev]
      rfl
    have hC : ((v0 :: t1 :: t') ++ [v0]).reverse = v0 :: r :: (u ++ [v0]) := by
      rw [List.reverse_append, hrev']
      rfl
    have hswap : ∀ l : List ((ℚ × ℚ) × (ℚ × ℚ)),
        (l.map (fun e => (e.2, e.1))).countP (edge_toggles x y)
          = l.countP (edge_toggles x y) := by
      intro l
      rw [List.countP_map]
      apply List.countP_congr
      intro e _
      rw [Function.comp_apply, edge_toggles_swap]
    have hE : (polyEdges (v0 :: t1 :: t')).countP (edge_toggles x y)
        = (pathPairs (v0 :: r :: (u ++ [v0]))).countP (edge_toggles x y) := by
      have h1 := pathPairs_reverse ((v0 :: t1 :: t') ++ [v0])
      rw [hC] at h1
      rw [h1, List.countP_reverse, hswap]
      rfl
    rw [hrev']
    show (pathPairs (((r :: u) ++ [v0]) ++ [r])).countP (edge_toggles x y)
      = (polyEdges (v0 :: t1 :: t')).countP (edge_toggles x y)
    rw [pathPairs_snoc, hE]
    show _ = ((v0, r) :: pathPairs ((r :: u) ++ [v0])).countP (edge_toggles x y)
    rw [List.countP_append, List.countP_cons]
    simp [List.countP_cons, Nat.add_comm]

/-- Reversing the polygon's vertex order leaves the containment test
unchanged: the walked edge set is the same. -/
theorem check_point_in_polygon_reverse (q : ℚ × ℚ) (polygon : List (ℚ × ℚ)) :
    check_point_in_polygon q polygon.reverse = check_point_in_polygon q polygon := by
  rw [check_eq_countP, check_eq_countP, countP_polyEdges_reverse]

/-- C6: for every strictly convex polygon with at least 3 vertices (in either
traversal order), `check_point_in_polygon` answers `true` on every strictly
interior point and `false` on every point strictly outside the polygon's
axis-aligned bounding extent. -/
theorem c6_convex_containment (polygon : List (ℚ × ℚ)) (q : ℚ × ℚ)
    (h3 : 3 ≤ polygon.length) (hcv : StrictlyConvex polygon) :
    (StrictlyInside q polygon → check_point_in_polygon q polygon = true) ∧
    (StrictlyOutsideExtent q polygon → check_point_in_polygon q polygon = false) := by
  constructor
  · intro hin
    obtain ⟨x, y⟩ := q
    rcases hcv with hccw | hcw
    · exact check_true_of_inside_ccw h3 hccw (hin.1 hccw)
    · have h3' : 3 ≤ polygon.reverse.length := by
        rw [List.length_reverse]
        exact h3
      have hrev := check_true_of_inside_ccw h3' hcw (hin.2 hcw)
      rw [check_point_in_polygon_reverse] at hrev
      exact hrev
  · intro hout
    exact check_false_of_outside_extent hout

theorem c6_convex_containment_witness :
    check_point_in_polygon (1, 1) tri_ccw = true ∧
    check_point_in_polygon (20, 1) tri_ccw = false := by
  have hcv : StrictlyConvex tri_ccw := by
    left
    constructor
    · simp [tri_ccw, Prod.ext_iff]
    · intro e he v hv hne1 hne2
      simp [tri_ccw, polyEdges, pathPairs] at he hv
      rcases he with rfl | rfl | rfl <;> rcases hv with rfl | rfl | rfl <;>
        first
        | (exact absurd rfl hne1)
        | (exact absurd rfl hne2)
        | norm_num [edge_cross]
  constructor
  · refine (c6_convex_containment tri_ccw (1, 1) (by norm_num [tri_ccw]) hcv).1 ?_
    constructor
    · intro _ e he
      simp [tri_ccw, polyEdges, pathPairs] at he
      rcases he with rfl | rfl | rfl <;> norm_num [edge_cross]
    · intro h
      exfalso
      have hm := h.2 (((0 : ℚ), (4 : ℚ)), ((4 : ℚ), (0 : ℚ)))
        (by simp [tri_ccw, polyEdges, pathPairs]) ((0 : ℚ), (0 : ℚ))
        (by simp [tri_ccw]) (by norm_num [Prod.ext_iff]) (by norm_num [Prod.ext_iff])
      norm_num [edge_cross] at hm
  · refine (c6_convex_containment tri_ccw (20, 1) (by norm_num [tri_ccw]) hcv).2 ?_
    right
    left
    intro v hv
    simp [tri_ccw] at hv
    rcases hv with rfl | rfl | rfl <;> norm_num

/-! ## Per-key characterisation of `update_alerts` -/

/-- Effect of one `penetration_step` on one ledger key. -/
theorem penetration_step_alert (now : ℚ) (zones : List Zone) (st : AlertManager)
    (track : Track) (k : ℤ) :
    (penetration_step now zones st track).active_alerts k
      = if track.track_id = k
        then alerts_key_fold now zones [track] (st.active_alerts k)
        else st.active_alerts k := by
  by_cases hk : track.track_id = k
  · subst hk
    by_cases hp : (check_zone_penetration track.bbox zones).1 <;>
      cases ha : st.active_alerts track.track_id <;>
      simp [penetration_step, alerts_key_fold, update_map, hp, ha]
  · by_cases hp : (check_zone_penetration track.bbox zones).1 <;>
      cases ha : st.active_alerts track.track_id <;>
      simp [penetration_step, alerts_key_fold, update_map, hp, ha, hk, Ne.symm hk]

/-- The first loop of `update_alerts`, viewed at one ledger key, folds exactly
the observations carrying that key. -/
theorem foldl_penetration_alert (now : ℚ) (zones : List Zone) :
    ∀ (tracks : List Track) (st : AlertManager) (k : ℤ),
      (tracks.foldl (penetration_step now zones) st).active_alerts k
        = alerts_key_fold now zones (tracks.filter (fun t => t.track_id = k))
            (st.active_alerts k)
  | [], _, _ => rfl
  | t :: ts, st, k => by
    rw [List.foldl_cons, foldl_penetration_alert now zones ts _ k]
    by_cases hk : t.track_id = k
    · rw [List.filter_cons_of_pos (by simp [hk])]
      have hstep := penetration_step_alert now zones st t k
      rw [if_pos hk] at hstep
      rw [hstep]
      rfl
    · rw [List.filter_cons_of_neg (by simp [hk])]
      have hstep := penetration_step_alert now zones st t k
      rw [if_neg hk] at hstep
      rw [hstep]

theorem find?_eq_head_filter {α : Type} (p : α → Bool) :
    ∀ l : List α, l.find? p = (l.filter p).head?
  | [] => rfl
  | a :: l => by
    by_cases h : p a
    · rw [List.find?_cons_of_pos _ h, List.filter_cons_of_pos h]
      rfl
    · rw [List.find?_cons_of_neg _ (by simpa using h),
        List.filter_cons_of_neg (by simpa using h), find?_eq_head_filter p l]

/-- One `update_alerts` tick, observed at one ledger key, is exactly
`update_alert_for` applied to this key's observations and previous entry. -/
theorem update_alerts_alert_eq (now : ℚ) (tracks : List Track) (zones : List Zone)
    (st : AlertManager) (k : ℤ) :
    (update_alerts now tracks zones st).1.active_alerts k
      = update_alert_for now zones (tracks.filter (fun t => t.track_id = k))
          (st.active_alerts k) := by
  show (match (tracks.foldl (penetration_step now zones) st).active_alerts k with
        | some alert => expiry_pass_entry now tracks zones k alert
            ((tracks.foldl (penetration_step now zones) st).track_positions k)
        | none =>
          (none, if tracks.any (fun t => t.track_id = k)
                 then (tracks.foldl (penetration_step now zones) st).track_positions k
                 else none)).1
      = _
  rw [foldl_penetration_alert]
  cases hfk : alerts_key_fold now zones (tracks.filter (fun t => t.track_id = k))
      (st.active_alerts k) with
  | none => simp [update_alert_for, hfk]
  | some alert =>
    cases hocc : tracks.filter (fun t => t.track_id = k) with
    | nil =>
      have hany : tracks.any (fun t => t.track_id = k) = false := by
        rw [List.any_eq_false]
        intro t ht hpt
        have : t ∈ tracks.filter (fun tr => tr.track_id = k) :=
          List.mem_filter.2 ⟨ht, by simpa using hpt⟩
        rw [hocc] at this
        simp at this
      rw [hocc] at hfk
      by_cases hd : ALARM_DURATION ≤ now - alert.last_seen_in_zone <;>
        simp [update_alert_for, hfk, hocc, expiry_pass_entry, hany, hd]
    | cons ct rest =>
      have hct : ct ∈ tracks.filter (fun t => t.track_id = k) := by
        rw [hocc]
        exact List.mem_cons_self _ _
      have hany : tracks.any (fun t => t.track_id = k) = true := by
        rw [List.any_eq_true]
        obtain ⟨h1, h2⟩ := List.mem_filter.1 hct
        exact ⟨ct, h1, h2⟩
      have hfind : tracks.find? (fun t => t.track_id = k) = some ct := by
        rw [find?_eq_head_filter, hocc]
        rfl
      rw [hocc] at hfk
      by_cases hp : (check_zone_penetration ct.bbox zones).1 <;>
        by_cases hd : ALARM_DURATION ≤ now - alert.last_seen_in_zone <;>
        simp [update_alert_for, hfk, hocc, expiry_pass_entry, hany, hfind, hp, hd]

/-- The set returned by `update_alerts` is the key set of the new ledger. -/
theorem update_alerts_returned_eq (now : ℚ) (tracks : List Track) (zones : List Zone)
    (st : AlertManager) (k : ℤ) :
    (update_alerts now tracks zones st).2 k
      = ((update_alerts now tracks zones st).1.active_alerts k).isSome := rfl

theorem alerts_key_fold_nopen (now : ℚ) (zones : List Zone) :
    ∀ (occs : List Track) (a0 : Option Alert),
      (∀ t ∈ occs, (check_zone_penetration t.bbox zones).1 = false) →
      alerts_key_fold now zones occs a0 = a0
  | [], _, _ => rfl
  | t :: ts, a0, h => by
    have ht := h t (List.mem_cons_self _ _)
    have hstep : alerts_key_fold now zones (t :: ts) a0 = alerts_key_fold now zones ts a0 := by
      simp [alerts_key_fold, ht]
    rw [hstep]
    exact alerts_key_fold_nopen now zones ts a0 (fun t' ht' => h t' (List.mem_cons_of_mem _ ht'))

theorem alerts_key_fold_keeps_now (now : ℚ) (zones : List Zone) :
    ∀ (occs : List Track) (a1 : Alert), a1.last_seen_in_zone = now →
      ∃ a2, alerts_key_fold now zones occs (some a1) = some a2 ∧ a2.last_seen_in_zone = now
  | [], a1, h => ⟨a1, rfl, h⟩
  | t :: ts, a1, h => by
    by_cases hp : (check_zone_penetration t.bbox zones).1
    · have hstep : alerts_key_fold now zones (t :: ts) (some a1)
          = alerts_key_fold now zones ts
              (some { a1 with last_seen_in_zone := now, is_active := true }) := by
        simp [alerts_key_fold, hp]
      rw [hstep]
      exact alerts_key_fold_keeps_now now zones ts _ rfl
    · have hstep : alerts_key_fold now zones (t :: ts) (some a1)
          = alerts_key_fold now zones ts (some a1) := by
        simp [alerts_key_fold, hp]
      rw [hstep]
      exact alerts_key_fold_keeps_now now zones ts a1 h

theorem alerts_key_fold_pen_now (now : ℚ) (zones : List Zone) :
    ∀ (occs : List Track) (a0 : Option Alert) (t : Track), t ∈ occs →
      (check_zone_penetration t.bbox zones).1 = true →
      ∃ a2, alerts_key_fold now zones occs a0 = some a2 ∧ a2.last_seen_in_zone = now
  | [], _, t, ht, _ => absurd ht (by simp)
  | t' :: ts, a0, t, ht, hp => by
    by_cases hp' : (check_zone_penetration t'.bbox zones).1
    · cases a0 with
      | none =>
        have hstep : alerts_key_fold now zones (t' :: ts) none
            = alerts_key_fold now zones ts
                (some ⟨t'.track_id, (check_zone_penetration t'.bbox zones).2, now, now, true⟩) := by
          simp [alerts_key_fold, hp']
        rw [hstep]
        exact alerts_key_fold_keeps_now now zones ts _ rfl
      | some a =>
        have hstep : alerts_key_fold now zones (t' :: ts) (some a)
            = alerts_key_fold now zones ts
                (some { a with last_seen_in_zone := now, is_active := true }) := by
          simp [alerts_key_fold, hp']
        rw [hstep]
        exact alerts_key_fold_keeps_now now zones ts _ rfl
    · rcases List.mem_cons.1 ht with rfl | ht'
      · exact absurd hp hp'
      · have hstep : alerts_key_fold now zones (t' :: ts) a0
            = alerts_key_fold now zones ts a0 := by
          simp [alerts_key_fold, hp']
        rw [hstep]
        exact alerts_key_fold_pen_now now zones ts a0 t ht' hp

theorem update_alert_for_of_nopen (now : ℚ) (zones : List Zone) (occs : List Track)
    (a0 : Option Alert)
    (h : ∀ t ∈ occs, (check_zone_penetration t.bbox zones).1 = false) :
    update_alert_for now zones occs a0
      = match a0 with
        | none => none
        | some a =>
          if ALARM_DURATION ≤ now - a.last_seen_in_zone then none
          else if occs.isEmpty then some a else some { a with is_active := false } := by
  have hfold := alerts_key_fold_nopen now zones occs a0 h
  cases a0 with
  | none => simp [update_alert_for, hfold]
  | some a =>
    cases hocc : occs with
    | nil => simp [update_alert_for, hocc ▸ hfold, hocc]
    | cons ct rest =>
      have hct : (check_zone_penetration ct.bbox zones).1 = false :=
        h ct (hocc ▸ List.mem_cons_self _ _)
      rw [hocc] at hfold
      by_cases hd : ALARM_DURATION ≤ now - a.last_seen_in_zone <;>
        simp [update_alert_for, hfold, hct, hd]

theorem update_alert_for_of_pen (now : ℚ) (zones : List Zone) (occs : List Track)
    (a0 : Option Alert) (t : Track) (ht : t ∈ occs)
    (hp : (check_zone_penetration t.bbox zones).1 = true) :
    ∃ a2, update_alert_for now zones occs a0 = some a2 ∧ a2.last_seen_in_zone = now := by
  obtain ⟨a1, hfold, hlast⟩ := alerts_key_fold_pen_now now zones occs a0 t ht hp
  cases hocc : occs with
  | nil =>
    rw [hocc] at ht
    exact absurd ht (by simp)
  | cons ct rest =>
    rw [hocc] at hfold
    by_cases hpc : (check_zone_penetration ct.bbox zones).1
    · exact ⟨a1, by simp [update_alert_for, hfold, hpc], hlast⟩
    · have hfresh : ¬(ALARM_DURATION ≤ now - a1.last_seen_in_zone) := by
        rw [hlast]
        norm_num [ALARM_DURATION]
      exact ⟨{ a1 with is_active := false },
        by simp [update_alert_for, hfold, hpc, hfresh], by simp [hlast]⟩

/-! ## The alert-lifecycle claims -/

/-- C2: after every `update_alerts` tick at time `now`, a ledger entry for a
track id exists iff the track's representative point was inside some zone on
this tick, or the record predating the tick is younger than `ALARM_DURATION`;
when the point is inside no zone this tick, the record is deleted exactly when
`now - last_seen_in_zone ≥ ALARM_DURATION` (departure and disappearance
alike); and a vanished, unexpired track's record is carried over completely
untouched — never force-transitioned. -/
theorem c2_ledger_presence (now : ℚ) (tracks : List Track) (zones : List Zone)
    (st : AlertManager) (k : ℤ) :
    (((update_alerts now tracks zones st).1.active_alerts k).isSome ↔
      (∃ t ∈ tracks, t.track_id = k ∧ (check_zone_penetration t.bbox zones).1 = true) ∨
      (∃ a, st.active_alerts k = some a ∧ now - a.last_seen_in_zone < ALARM_DURATION)) ∧
    (∀ a, st.active_alerts k = some a →
      (∀ t ∈ tracks, t.track_id = k → (check_zone_penetration t.bbox zones).1 = false) →
      ((update_alerts now tracks zones st).1.active_alerts k = none ↔
        ALARM_DURATION ≤ now - a.last_seen_in_zone)) ∧
    (∀ a, st.active_alerts k = some a →
      (∀ t ∈ tracks, t.track_id ≠ k) →
      now - a.last_seen_in_zone < ALARM_DURATION →
      (update_alerts now tracks zones st).1.active_alerts k = some a) := by
  have hmem : ∀ t, t ∈ tracks.filter (fun tr => tr.track_id = k)
      ↔ t ∈ tracks ∧ t.track_id = k := by
    intro t
    rw [List.mem_filter]
    simp
  refine ⟨?_, ?_, ?_⟩
  · rw [update_alerts_alert_eq]
    by_cases hpen : ∃ t ∈ tracks.filter (fun tr => tr.track_id = k),
        (check_zone_penetration t.bbox zones).1 = true
    · obtain ⟨t, ht, hp⟩ := hpen
      obtain ⟨a2, ha2, _⟩ := update_alert_for_of_pen now zones _ (st.active_alerts k) t ht hp
      rw [ha2]
      simp only [Option.isSome_some, true_iff]
      left
      exact ⟨t, (hmem t).1 ht |>.1, (hmem t).1 ht |>.2, hp⟩
    · have hno : ∀ t ∈ tracks.filter (fun tr => tr.track_id = k),
          (check_zone_penetration t.bbox zones).1 = false := by
        intro t ht
        cases hv : (check_zone_penetration t.bbox zones).1
        · rfl
        · exact absurd ⟨t, ht, hv⟩ hpen
      rw [update_alert_for_of_nopen now zones _ (st.active_alerts k) hno]
      have hnotin : ¬∃ t ∈ tracks, t.track_id = k ∧
          (check_zone_penetration t.bbox zones).1 = true := by
        rintro ⟨t, ht, hid, hp⟩
        exact hpen ⟨t, (hmem t).2 ⟨ht, hid⟩, hp⟩
      cases ha : st.active_alerts k with
      | none => simp [hnotin]
      | some a =>
        by_cases hd : ALARM_DURATION ≤ now - a.last_seen_in_zone
        · simp only [hd, if_true, Option.isSome_none]
          constructor
          · intro hh
            exact absurd hh (by simp)
          · rintro (hh | ⟨a', ha', hfr⟩)
            · exact absurd hh hnotin
            · cases ha'
              linarith
        · by_cases hb : (tracks.filter (fun tr => tr.track_id = k)).isEmpty <;>
            simp [hd, hb] <;>
            first
            | exact Or.inr ⟨a, rfl, not_le.1 hd⟩
            | exact Or.inr (not_le.1 hd)
  · intro a ha hno
    rw [update_alerts_alert_eq]
    have hno' : ∀ t ∈ tracks.filter (fun tr => tr.track_id = k),
        (check_zone_penetration t.bbox zones).1 = false := by
      intro t ht
      obtain ⟨ht1, ht2⟩ := (hmem t).1 ht
      exact hno t ht1 ht2
    rw [update_alert_for_of_nopen now zones _ (st.active_alerts k) hno', ha]
    by_cases hd : ALARM_DURATION ≤ now - a.last_seen_in_zone
    · simp [hd]
    · by_cases hb : (tracks.filter (fun tr => tr.track_id = k)).isEmpty <;>
        simp [hd, hb]
  · intro a ha habs hfresh
    rw [update_alerts_alert_eq]
    have hocc : tracks.filter (fun tr => tr.track_id = k) = [] := by
      rw [List.filter_eq_nil_iff]
      intro t ht
      simp [habs t ht]
    rw [hocc, update_alert_for_of_nopen now zones _ (st.active_alerts k) (by simp), ha]
    simp [not_le.2 hfresh]

theorem c2_ledger_presence_witness :
    ((update_alerts 1 [] [[(0, 0), (10, 0), (10, 10), (0, 10)]]
        ⟨fun k => if k = 7 then some ⟨7, 0, 0, 0, true⟩ else none,
         fun _ => none⟩).1.active_alerts 7).isSome = true ∧
    (update_alerts 1 [] [[(0, 0), (10, 0), (10, 10), (0, 10)]]
        ⟨fun k => if k = 7 then some ⟨7, 0, 0, 0, true⟩ else none,
         fun _ => none⟩).1.active_alerts 7 = some ⟨7, 0, 0, 0, true⟩ := by
  constructor
  · rw [(c2_ledger_presence 1 [] [[(0, 0), (10, 0), (10, 10), (0, 10)]]
      ⟨fun k => if k = 7 then some ⟨7, 0, 0, 0, true⟩ else none, fun _ => none⟩ 7).1]
    right
    exact ⟨⟨7, 0, 0, 0, true⟩, by simp, by norm_num [ALARM_DURATION]⟩
  · exact (c2_ledger_presence 1 [] [[(0, 0), (10, 0), (10, 10), (0, 10)]]
      ⟨fun k => if k = 7 then some ⟨7, 0, 0, 0, true⟩ else none, fun _ => none⟩ 7).2.2
      ⟨7, 0, 0, 0, true⟩ (by simp) (by simp) (by norm_num [ALARM_DURATION])

/-- C1 as frozen is false on the code in two ways.  Tick 0 creates a record
for track 7 inside the unit-10 square (`last_seen_in_zone = 0`).  (i) At a
tick of time `7/2 < 4` at which the track is absent, the claim demands the
track be in the returned alerted set; the code has already deleted it, since
`7/2 - 0 ≥ ALARM_DURATION = 3`.  (ii) At a tick of time `1` at which the
track is absent, the claim demands `is_active = false`; the code leaves the
record untouched with `is_active = true`. -/
theorem c1_counterexample :
    (update_alerts (7 / 2) [] [[(0, 0), (10, 0), (10, 10), (0, 10)]]
        (update_alerts 0 [⟨7, ⟨0, 0, 10, 10⟩⟩] [[(0, 0), (10, 0), (10, 10), (0, 10)]]
          initial_manager).1).2 7 = false ∧
    (update_alerts 1 [] [[(0, 0), (10, 0), (10, 10), (0, 10)]]
        (update_alerts 0 [⟨7, ⟨0, 0, 10, 10⟩⟩] [[(0, 0), (10, 0), (10, 10), (0, 10)]]
          initial_manager).1).1.active_alerts 7 = some ⟨7, 0, 0, 0, true⟩ := by
  constructor
  · rw [update_alerts_returned_eq, update_alerts_alert_eq, update_alerts_alert_eq]
    norm_num [update_alert_for, alerts_key_fold, initial_manager, check_zone_penetration,
      zone_scan, get_bbox_center, check_point_in_polygon, polyEdges, pathPairs,
      edge_toggles, min_def, max_def, ALARM_DURATION]
  · rw [update_alerts_alert_eq, update_alerts_alert_eq]
    norm_num [update_alert_for, alerts_key_fold, initial_manager, check_zone_penetration,
      zone_scan, get_bbox_center, check_point_in_polygon, polyEdges, pathPairs,
      edge_toggles, min_def, max_def, ALARM_DURATION]

/-- C1 (amended): with `ALARM_DURATION = 3`, a record refreshed inside a zone
at tick time `0` (`last_seen_in_zone = 0`), at a later tick of time `now` at
which the track is absent from the observations or observed with its point
outside every zone: the record — and hence membership in the returned alerted
set — survives exactly the ticks with `now < 3` and is gone from `now ≥ 3`
on, identically in the two cases; at an observed-outside tick the surviving
record gets `is_active = false`, while at an absent tick it is carried over
unchanged (`is_active` keeps its previous value).  The surviving record keeps
`last_seen_in_zone = 0`, so the account applies to every tick of such a run. -/
theorem c1_grace_period (now : ℚ) (tracks : List Track) (zones : List Zone)
    (st : AlertManager) (k : ℤ) (a : Alert)
    (ha : st.active_alerts k = some a) (hlast : a.last_seen_in_zone = 0) :
    ((∀ t ∈ tracks, t.track_id ≠ k) →
      (now < ALARM_DURATION →
        (update_alerts now tracks zones st).1.active_alerts k = some a ∧
        (update_alerts now tracks zones st).2 k = true) ∧
      (ALARM_DURATION ≤ now →
        (update_alerts now tracks zones st).1.active_alerts k = none ∧
        (update_alerts now tracks zones st).2 k = false)) ∧
    (∀ t, tracks.filter (fun tr => tr.track_id = k) = [t] →
      (check_zone_penetration t.bbox zones).1 = false →
      (now < ALARM_DURATION →
        (update_alerts now tracks zones st).1.active_alerts k
          = some { a with is_active := false } ∧
        (update_alerts now tracks zones st).2 k = true) ∧
      (ALARM_DURATION ≤ now →
        (update_alerts now tracks zones st).1.active_alerts k = none ∧
        (update_alerts now tracks zones st).2 k = false)) := by
  constructor
  · intro habs
    have hocc : tracks.filter (fun tr => tr.track_id = k) = [] := by
      rw [List.filter_eq_nil_iff]
      intro t ht
      simp [habs t ht]
    constructor <;> intro hn
    · have hval : (update_alerts now tracks zones st).1.active_alerts k = some a := by
        rw [update_alerts_alert_eq, hocc,
          update_alert_for_of_nopen now zones [] _ (by simp), ha]
        simp [hlast, not_le.2 hn]
      exact ⟨hval, by rw [update_alerts_returned_eq, hval]; rfl⟩
    · have hval : (update_alerts now tracks zones st).1.active_alerts k = none := by
        rw [update_alerts_alert_eq, hocc,
          update_alert_for_of_nopen now zones [] _ (by simp), ha]
        simp [hlast]
        linarith
      exact ⟨hval, by rw [update_alerts_returned_eq, hval]; rfl⟩
  · intro t hocc hpen
    have hno : ∀ tr ∈ [t], (check_zone_penetration tr.bbox zones).1 = false := by
      intro tr htr
      rw [List.mem_singleton.1 htr]
      exact hpen
    constructor <;> intro hn
    · have hval : (update_alerts now tracks zones st).1.active_alerts k
          = some { a with is_active := false } := by
        rw [update_alerts_alert_eq, hocc, update_alert_for_of_nopen now zones [t] _ hno, ha]
        simp [hlast, not_le.2 hn]
      exact ⟨hval, by rw [update_alerts_returned_eq, hval]; rfl⟩
    · have hval : (update_alerts now tracks zones st).1.active_alerts k = none := by
        rw [update_alerts_alert_eq, hocc, update_alert_for_of_nopen now zones [t] _ hno, ha]
        simp [hlast]
        linarith
      exact ⟨hval, by rw [update_alerts_returned_eq, hval]; rfl⟩

theorem c1_grace_period_witness :
    (update_alerts 1 [] [[(0, 0), (10, 0), (10, 10), (0, 10)]]
        ⟨fun k => if k = 7 then some ⟨7, 0, 0, 0, true⟩ else none,
         fun _ => none⟩).1.active_alerts 7 = some ⟨7, 0, 0, 0, true⟩ ∧
    (update_alerts 1 [⟨7, ⟨20, 20, 30, 30⟩⟩] [[(0, 0), (10, 0), (10, 10), (0, 10)]]
        ⟨fun k => if k = 7 then some ⟨7, 0, 0, 0, true⟩ else none,
         fun _ => none⟩).1.active_alerts 7 = some ⟨7, 0, 0, 0, false⟩ := by
  constructor
  · exact (((c1_grace_period 1 [] [[(0, 0), (10, 0), (10, 10), (0, 10)]]
      ⟨fun k => if k = 7 then some ⟨7, 0, 0, 0, true⟩ else none, fun _ => none⟩ 7
      ⟨7, 0, 0, 0, true⟩ (by simp) rfl).1 (by simp)).1
      (by norm_num [ALARM_DURATION])).1
  · exact (((c1_grace_period 1 [⟨7, ⟨20, 20, 30, 30⟩⟩]
      [[(0, 0), (10, 0), (10, 10), (0, 10)]]
      ⟨fun k => if k = 7 then some ⟨7, 0, 0, 0, true⟩ else none, fun _ => none⟩ 7
      ⟨7, 0, 0, 0, true⟩ (by simp) rfl).2 ⟨7, ⟨20, 20, 30, 30⟩⟩ (by simp)
      (by norm_num [check_zone_penetration, zone_scan, get_bbox_center,
        check_point_in_polygon, polyEdges, pathPairs, edge_toggles, min_def, max_def])).1
      (by norm_num [ALARM_DURATION])).1

/-- C3: `get_alert_status` answers `(false, 0)` for an id with no record,
`(true, 0)` for an active record, and for a departed record returns the pair
`(remaining > 0, remaining)` with
`remaining = max 0 (ALARM_DURATION - (now - last_seen_in_zone))`; being a
pure read of the ledger, it mutates nothing. -/
theorem c3_get_alert_status (now : ℚ) (st : AlertManager) (k : ℤ) :
    (st.active_alerts k = none → get_alert_status now st k = (false, 0)) ∧
    (∀ a, st.active_alerts k = some a → a.is_active = true →
      get_alert_status now st k = (true, 0)) ∧
    (∀ a, st.active_alerts k = some a → a.is_active = false →
      (get_alert_status now st k).2
          = max 0 (ALARM_DURATION - (now - a.last_seen_in_zone)) ∧
      ((get_alert_status now st k).1 = true ↔ 0 < (get_alert_status now st k).2)) := by
  refine ⟨?_, ?_, ?_⟩
  · intro h
    simp [get_alert_status, h]
  · intro a ha hact
    simp [get_alert_status, ha, hact]
  · intro a ha hact
    simp [get_alert_status, ha, hact]

theorem c3_get_alert_status_witness :
    get_alert_status 5 initial_manager 7 = (false, 0) ∧
    get_alert_status 5
      ⟨fun k => if k = 7 then some ⟨7, 0, 0, 0, true⟩ else none, fun _ => none⟩ 7
      = (true, 0) ∧
    (get_alert_status 1
      ⟨fun k => if k = 7 then some ⟨7, 0, 0, 0, false⟩ else none, fun _ => none⟩ 7).2
      = 2 := by
  refine ⟨?_, ?_, ?_⟩
  · exact (c3_get_alert_status 5 initial_manager 7).1 rfl
  · exact (c3_get_alert_status 5 _ 7).2.1 ⟨7, 0, 0, 0, true⟩ (by simp) rfl
  · have h := (c3_get_alert_status 1
      ⟨fun k => if k = 7 then some ⟨7, 0, 0, 0, false⟩ else none, fun _ => none⟩ 7).2.2
      ⟨7, 0, 0, 0, false⟩ (by simp) rfl
    rw [h.1]
    norm_num [ALARM_DURATION]

/-- C4 as frozen is false on the code: the outside-every-zone branch does not
always leave a record with `is_active = false` — when
`now - last_seen_in_zone ≥ ALARM_DURATION` the record is deleted on the same
tick.  Track 7 holds the record `⟨7, 0, 0, 0, true⟩`, is observed at
`(25, 25)` outside the square at time `5`; the claim demands
`some ⟨7, 0, 0, 0, false⟩`, the code deletes. -/
theorem c4_counterexample :
    (update_alerts 5 [⟨7, ⟨20, 20, 30, 30⟩⟩] [[(0, 0), (10, 0), (10, 10), (0, 10)]]
        ⟨fun k => if k = 7 then some ⟨7, 0, 0, 0, true⟩ else none,
         fun _ => none⟩).1.active_alerts 7 = none ∧
    ¬ (update_alerts 5 [⟨7, ⟨20, 20, 30, 30⟩⟩] [[(0, 0), (10, 0), (10, 10), (0, 10)]]
        ⟨fun k => if k = 7 then some ⟨7, 0, 0, 0, true⟩ else none,
         fun _ => none⟩).1.active_alerts 7 = some ⟨7, 0, 0, 0, false⟩ := by
  have hval : (update_alerts 5 [⟨7, ⟨20, 20, 30, 30⟩⟩]
      [[(0, 0), (10, 0), (10, 10), (0, 10)]]
      ⟨fun k => if k = 7 then some ⟨7, 0, 0, 0, true⟩ else none,
       fun _ => none⟩).1.active_alerts 7 = none := by
    rw [update_alerts_alert_eq]
    norm_num [update_alert_for, alerts_key_fold, check_zone_penetration, zone_scan,
      get_bbox_center, check_point_in_polygon, polyEdges, pathPairs, edge_toggles,
      min_def, max_def, ALARM_DURATION]
  exact ⟨hval, by rw [hval]; simp⟩

/-- C4 (amended): for a track that already holds a record and is observed
exactly once this tick: if its center is inside some zone, the tick rewrites
the record to `last_seen_in_zone = now`, `is_active = true` and leaves
`entry_time` and `zone_id` untouched (no re-assignment of `zone_id`, whatever
zone now contains the point), unconditionally; if its center is outside every
zone and the record is not yet expired (`now - last_seen_in_zone <
ALARM_DURATION`), the tick only clears `is_active`, leaving
`last_seen_in_zone`, `entry_time` and `zone_id` frozen; an expired record is
instead deleted by the same tick. -/
theorem c4_observed_frame (now : ℚ) (tracks : List Track) (zones : List Zone)
    (st : AlertManager) (k : ℤ) (a : Alert) (t : Track)
    (ha : st.active_alerts k = some a)
    (hocc : tracks.filter (fun tr => tr.track_id = k) = [t]) :
    ((check_zone_penetration t.bbox zones).1 = true →
      (update_alerts now tracks zones st).1.active_alerts k
        = some { a with last_seen_in_zone := now, is_active := true }) ∧
    ((check_zone_penetration t.bbox zones).1 = false →
      now - a.last_seen_in_zone < ALARM_DURATION →
      (update_alerts now tracks zones st).1.active_alerts k
        = some { a with is_active := false }) ∧
    ((check_zone_penetration t.bbox zones).1 = false →
      ALARM_DURATION ≤ now - a.last_seen_in_zone →
      (update_alerts now tracks zones st).1.active_alerts k = none) := by
  refine ⟨?_, ?_, ?_⟩
  · intro hpen
    rw [update_alerts_alert_eq, hocc, ha]
    simp [update_alert_for, alerts_key_fold, hpen]
  · intro hpen hfresh
    rw [update_alerts_alert_eq, hocc, ha]
    simp [update_alert_for, alerts_key_fold, hpen, not_le.2 hfresh]
  · intro hpen hexp
    rw [update_alerts_alert_eq, hocc, ha]
    simp [update_alert_for, alerts_key_fold, hpen, hexp]

theorem c4_observed_frame_witness :
    (update_alerts 9 [⟨7, ⟨0, 0, 10, 10⟩⟩] [[(0, 0), (10, 0), (10, 10), (0, 10)]]
        ⟨fun k => if k = 7 then some ⟨7, 5, 0, 0, false⟩ else none,
         fun _ => none⟩).1.active_alerts 7 = some ⟨7, 5, 0, 9, true⟩ ∧
    (update_alerts 2 [⟨7, ⟨20, 20, 30, 30⟩⟩] [[(0, 0), (10, 0), (10, 10), (0, 10)]]
        ⟨fun k => if k = 7 then some ⟨7, 0, 0, 0, true⟩ else none,
         fun _ => none⟩).1.active_alerts 7 = some ⟨7, 0, 0, 0, false⟩ := by
  constructor
  · exact (c4_observed_frame 9 [⟨7, ⟨0, 0, 10, 10⟩⟩]
      [[(0, 0), (10, 0), (10, 10), (0, 10)]]
      ⟨fun k => if k = 7 then some ⟨7, 5, 0, 0, false⟩ else none, fun _ => none⟩ 7
      ⟨7, 5, 0, 0, false⟩ ⟨7, ⟨0, 0, 10, 10⟩⟩ (by simp) (by simp)).1
      (by norm_num [check_zone_penetration, zone_scan, get_bbox_center,
        check_point_in_polygon, polyEdges, pathPairs, edge_toggles, min_def, max_def])
  · exact (c4_observed_frame 2 [⟨7, ⟨20, 20, 30, 30⟩⟩]
      [[(0, 0), (10, 0), (10, 10), (0, 10)]]
      ⟨fun k => if k = 7 then some ⟨7, 0, 0, 0, true⟩ else none, fun _ => none⟩ 7
      ⟨7, 0, 0, 0, true⟩ ⟨7, ⟨20, 20, 30, 30⟩⟩ (by simp) (by simp)).2.1
      (by norm_num [check_zone_penetration, zone_scan, get_bbox_center,
        check_point_in_polygon, polyEdges, pathPairs, edge_toggles, min_def, max_def])
      (by norm_num [ALARM_DURATION])

/-- C10: a departed record (`is_active = false`) that has not yet expired,
whose track is observed with its center inside some zone on a later tick, is
reactivated in place by `update_alerts`: `is_active` returns to `true` and
`last_seen_in_zone` is refreshed to `now`, while `entry_time`, `zone_id` and
`track_id` keep their original values and no fresh record replaces it — the
DEPARTED → INSIDE transition the specification's state machine does not
list. -/
theorem c10_departed_reactivation (now : ℚ) (tracks : List Track) (zones : List Zone)
    (st : AlertManager) (k : ℤ) (a : Alert) (t : Track)
    (ha : st.active_alerts k = some a) (hdep : a.is_active = false)
    (hfresh : now - a.last_seen_in_zone < ALARM_DURATION)
    (hocc : tracks.filter (fun tr => tr.track_id = k) = [t])
    (hpen : (check_zone_penetration t.bbox zones).1 = true) :
    (update_alerts now tracks zones st).1.active_alerts k
      = some { a with last_seen_in_zone := now, is_active := true } := by
  rw [update_alerts_alert_eq, hocc, ha]
  simp [update_alert_for, alerts_key_fold, hpen]

theorem c10_departed_reactivation_witness :
    (update_alerts 2 [⟨7, ⟨0, 0, 10, 10⟩⟩] [[(0, 0), (10, 0), (10, 10), (0, 10)]]
        ⟨fun k => if k = 7 then some ⟨7, 0, 0, 0, false⟩ else none,
         fun _ => none⟩).1.active_alerts 7 = some ⟨7, 0, 0, 2, true⟩ := by
  exact c10_departed_reactivation 2 [⟨7, ⟨0, 0, 10, 10⟩⟩]
    [[(0, 0), (10, 0), (10, 10), (0, 10)]]
    ⟨fun k => if k = 7 then some ⟨7, 0, 0, 0, false⟩ else none, fun _ => none⟩ 7
    ⟨7, 0, 0, 0, false⟩ ⟨7, ⟨0, 0, 10, 10⟩⟩ (by simp) rfl
    (by norm_num [ALARM_DURATION]) (by simp)
    (by norm_num [check_zone_penetration, zone_scan, get_bbox_center,
      check_point_in_polygon, polyEdges, pathPairs, edge_toggles, min_def, max_def])

/-! ## The `entry_time ≤ last_seen_in_zone` invariant (C8) -/

theorem alerts_key_fold_inv (now : ℚ) (zones : List Zone) :
    ∀ (occs : List Track) (a0 : Option Alert),
      (∀ a, a0 = some a →
        a.entry_time ≤ a.last_seen_in_zone ∧ a.last_seen_in_zone ≤ now) →
      ∀ a, alerts_key_fold now zones occs a0 = some a →
        a.entry_time ≤ a.last_seen_in_zone ∧ a.last_seen_in_zone ≤ now
  | [], _, h, a, ha => h a ha
  | t :: ts, a0, h, a, ha => by
    by_cases hp : (check_zone_penetration t.bbox zones).1
    · cases a0 with
      | none =>
        have hstep : alerts_key_fold now zones (t :: ts) none
            = alerts_key_fold now zones ts
                (some ⟨t.track_id, (check_zone_penetration t.bbox zones).2, now, now, true⟩) := by
          simp [alerts_key_fold, hp]
        rw [hstep] at ha
        refine alerts_key_fold_inv now zones ts _ ?_ a ha
        rintro a' ha'
        cases ha'
        exact ⟨le_refl _, le_refl _⟩
      | some b =>
        have hb := h b rfl
        have hstep : alerts_key_fold now zones (t :: ts) (some b)
            = alerts_key_fold now zones ts
                (some { b with last_seen_in_zone := now, is_active := true }) := by
          simp [alerts_key_fold, hp]
        rw [hstep] at ha
        refine alerts_key_fold_inv now zones ts _ ?_ a ha
        rintro a' ha'
        cases ha'
        exact ⟨le_trans hb.1 hb.2, le_refl _⟩
    · have hstep : alerts_key_fold now zones (t :: ts) a0
          = alerts_key_fold now zones ts a0 := by
        simp [alerts_key_fold, hp]
      rw [hstep] at ha
      exact alerts_key_fold_inv now zones ts a0 h a ha

theorem update_alerts_inv (now : ℚ) (tracks : List Track) (zones : List Zone)
    (st : AlertManager) (T : ℚ) (hT : T ≤ now)
    (hinv : ∀ k a, st.active_alerts k = some a →
      a.entry_time ≤ a.last_seen_in_zone ∧ a.last_seen_in_zone ≤ T) :
    ∀ k a, (update_alerts now tracks zones st).1.active_alerts k = some a →
      a.entry_time ≤ a.last_seen_in_zone ∧ a.last_seen_in_zone ≤ now := by
  intro k a ha
  rw [update_alerts_alert_eq] at ha
  have hfoldinv := alerts_key_fold_inv now zones
    (tracks.filter (fun tr => tr.track_id = k)) (st.active_alerts k)
    (fun a' ha' => ⟨(hinv k a' ha').1, le_trans (hinv k a' ha').2 hT⟩)
  revert ha
  cases hfk : alerts_key_fold now zones (tracks.filter (fun tr => tr.track_id = k))
      (st.active_alerts k) with
  | none =>
    simp [update_alert_for, hfk]
  | some alert =>
    have halert := hfoldinv alert hfk
    cases hocc : tracks.filter (fun tr => tr.track_id = k) with
    | nil =>
      rw [hocc] at hfk
      by_cases hd : ALARM_DURATION ≤ now - alert.last_seen_in_zone <;>
        simp [update_alert_for, hfk, hd] <;>
        rintro rfl <;> exact halert
    | cons ct rest =>
      rw [hocc] at hfk
      by_cases hp : (check_zone_penetration ct.bbox zones).1 <;>
        by_cases hd : ALARM_DURATION ≤ now - alert.last_seen_in_zone <;>
        simp [update_alert_for, hfk, hp, hd] <;>
        rintro rfl <;>
        exact halert

theorem run_ticks_inv :
    ∀ (ticks : List Tick) (st : AlertManager) (T : ℚ),
      (∀ k a, st.active_alerts k = some a →
        a.entry_time ≤ a.last_seen_in_zone ∧ a.last_seen_in_zone ≤ T) →
      List.Chain' (· ≤ ·) (T :: ticks.map Tick.time) →
      ∀ k a, (run_ticks st ticks).active_alerts k = some a →
        a.entry_time ≤ a.last_seen_in_zone
  | [], _, _, hinv, _, k, a, ha => (hinv k a ha).1
  | tk :: ticks, st, T, hinv, hch, k, a, ha => by
    have hT : T ≤ tk.time := (List.chain'_cons.1 hch).1
    have hch' : List.Chain' (· ≤ ·) (tk.time :: ticks.map Tick.time) :=
      (List.chain'_cons.1 hch).2
    have hstep := update_alerts_inv tk.time tk.tracks tk.zones st T hT hinv
    exact run_ticks_inv ticks _ tk.time hstep hch' k a ha

/-- C8: in every ledger state reached by running `update_alerts` ticks with
non-decreasing timestamps from the freshly constructed manager, every record
satisfies `entry_time ≤ last_seen_in_zone`: creation writes the two fields
equal, and the only later write to `last_seen_in_zone` replaces it by the
current (not smaller) tick time while `entry_time` is never written again. -/
theorem c8_entry_le_last_seen (ticks : List Tick)
    (hch : List.Chain' (· ≤ ·) (ticks.map Tick.time)) :
    ∀ k a, (run_ticks initial_manager ticks).active_alerts k = some a →
      a.entry_time ≤ a.last_seen_in_zone := by
  cases ticks with
  | nil =>
    intro k a ha
    exact absurd ha (by simp [run_ticks, initial_manager])
  | cons tk ticks' =>
    refine run_ticks_inv (tk :: ticks') initial_manager tk.time ?_ ?_
    · intro k a ha
      exact absurd ha (by simp [initial_manager])
    · exact List.chain'_cons.2 ⟨le_refl _, hch⟩

theorem c8_entry_le_last_seen_witness :
    (Alert.mk 7 0 0 0 true).entry_time ≤ (Alert.mk 7 0 0 0 true).last_seen_in_zone := by
  refine c8_entry_le_last_seen
    [⟨0, [⟨7, ⟨0, 0, 10, 10⟩⟩], [[(0, 0), (10, 0), (10, 10), (0, 10)]]⟩,
     ⟨1, [], [[(0, 0), (10, 0), (10, 10), (0, 10)]]⟩] ?_ 7 ⟨7, 0, 0, 0, true⟩ ?_
  · exact List.chain'_cons.2 ⟨by norm_num, List.chain'_singleton _⟩
  · show (update_alerts 1 [] [[(0, 0), (10, 0), (10, 10), (0, 10)]]
        (update_alerts 0 [⟨7, ⟨0, 0, 10, 10⟩⟩] [[(0, 0), (10, 0), (10, 10), (0, 10)]]
          initial_manager).1).1.active_alerts 7 = some ⟨7, 0, 0, 0, true⟩
    rw [update_alerts_alert_eq, update_alerts_alert_eq]
    norm_num [update_alert_for, alerts_key_fold, initial_manager, check_zone_penetration,
      zone_scan, get_bbox_center, check_point_in_polygon, polyEdges, pathPairs,
      edge_toggles, min_def, max_def, ALARM_DURATION]

/-! ## Zone scan order (C5) and zone registration (C7) -/

theorem zone_scan_ind (c : ℚ × ℚ) :
    ∀ (zones : List Zone) (i : ℤ),
      (zone_scan c zones i = (false, -1) ↔
        ∀ z ∈ zones, check_point_in_polygon c z = false) ∧
      (∀ r : ℤ, zone_scan c zones i = (true, r) →
        ∃ n : ℕ, r = i + n ∧ n < zones.length ∧
          check_point_in_polygon c (zones.getD n []) = true ∧
          ∀ j : ℕ, j < n → check_point_in_polygon c (zones.getD j []) = false)
  | [], i => by
    constructor
    · simp [zone_scan]
    · intro r hr
      simp [zone_scan] at hr
  | z :: rest, i => by
    by_cases hz : check_point_in_polygon c z
    · constructor
      · constructor
        · intro h
          rw [zone_scan, if_pos hz] at h
          simp at h
        · intro h
          exact absurd (h z (List.mem_cons_self _ _)) (by simp [hz])
      · intro r hr
        rw [zone_scan, if_pos hz] at hr
        obtain ⟨-, hri⟩ := Prod.mk.injEq .. ▸ hr
        refine ⟨0, by omega, by simp, by simpa [List.getD] using hz, ?_⟩
        intro j hj
        omega
    · have IH := zone_scan_ind c rest (i + 1)
      have hstep : zone_scan c (z :: rest) i = zone_scan c rest (i + 1) := by
        rw [zone_scan, if_neg hz]
      constructor
      · rw [hstep]
        constructor
        · intro h z' hz'
          rcases List.mem_cons.1 hz' with rfl | hz''
          · simpa using hz
          · exact IH.1.1 h z' hz''
        · intro h
          exact IH.1.2 (fun z' h' => h z' (List.mem_cons_of_mem _ h'))
      · intro r hr
        rw [hstep] at hr
        obtain ⟨n, hrn, hlen, hget, hbefore⟩ := IH.2 r hr
        refine ⟨n + 1, by push_cast at hrn ⊢; omega, by simpa using Nat.succ_lt_succ hlen,
          by simpa [List.getD] using hget, ?_⟩
        intro j hj
        cases j with
        | zero => simpa [List.getD] using hz
        | succ j' =>
          have := hbefore j' (by omega)
          simpa [List.getD] using this

/-- C5: the point tested against the zones is the bounding-box center
`((x1+x2)/2, (y1+y2)/2)`, recomputed from the box supplied on this tick; the
zone id returned on a hit is the lowest index whose polygon contains that
center — zones are tested in list order and the scan stops at the first hit —
and `(false, -1)` is returned exactly when no zone contains it. -/
theorem c5_center_first_hit (bbox : BBox) (zones : List Zone) :
    get_bbox_center bbox = ((bbox.x1 + bbox.x2) / 2, (bbox.y1 + bbox.y2) / 2) ∧
    (check_zone_penetration bbox zones = (false, -1) ↔
      ∀ z ∈ zones, check_point_in_polygon (get_bbox_center bbox) z = false) ∧
    (∀ r : ℤ, check_zone_penetration bbox zones = (true, r) →
      ∃ n : ℕ, r = n ∧ n < zones.length ∧
        check_point_in_polygon (get_bbox_center bbox) (zones.getD n []) = true ∧
        ∀ j : ℕ, j < n →
          check_point_in_polygon (get_bbox_center bbox) (zones.getD j []) = false) := by
  refine ⟨rfl, (zone_scan_ind (get_bbox_center bbox) zones 0).1, ?_⟩
  intro r hr
  obtain ⟨n, hrn, h1, h2, h3⟩ := (zone_scan_ind (get_bbox_center bbox) zones 0).2 r hr
  exact ⟨n, by simpa using hrn, h1, h2, h3⟩

theorem c5_center_first_hit_witness :
    check_zone_penetration ⟨20, 20, 30, 30⟩ [[(0, 0), (10, 0), (10, 10), (0, 10)]]
      = (false, -1) := by
  refine (c5_center_first_hit ⟨20, 20, 30, 30⟩
    [[(0, 0), (10, 0), (10, 10), (0, 10)]]).2.1.2 ?_
  intro z hz
  rw [List.mem_singleton.1 hz]
  norm_num [get_bbox_center, check_point_in_polygon, polyEdges, pathPairs,
    edge_toggles, min_def, max_def]

/-- C7 as frozen is false on the code: `Config.load_zones` performs no
vertex-count validation — a persistence file holding a 2-vertex zone is
returned to the caller verbatim, with no error of any kind (no
`ConfigurationError` exists anywhere in the repository). -/
theorem c7_counterexample :
    load_zones (some [[(0, 0), (1, 1)]]) = [[(0, 0), (1, 1)]] ∧
    ∃ z ∈ load_zones (some [[(0, 0), (1, 1)]]), z.length < 3 := by
  exact ⟨rfl, [(0, 0), (1, 1)], by simp [load_zones], by simp⟩

/-- C7 (amended): sub-3-vertex zones are rejected only by the interactive
marker: a right click with fewer than 3 buffered points leaves both the zone
list and the point buffer unchanged (a message is printed; nothing is raised
and no `ConfigurationError` exists), while a right click with at least 3
points appends the polygon and clears the buffer; `Config.load_zones`
validates nothing and returns whatever vertex lists the persistence file
holds (empty list when the file is missing), so a caller can still be handed
a sub-3-vertex zone through the file path. -/
theorem c7_no_registration_error :
    (∀ (pts : List (ℚ × ℚ)) (zones : List Zone), pts.length < 3 →
      mark_zones_callback_rbuttondown pts zones = (zones, pts)) ∧
    (∀ (pts : List (ℚ × ℚ)) (zones : List Zone), 3 ≤ pts.length →
      mark_zones_callback_rbuttondown pts zones = (zones ++ [pts], [])) ∧
    (∀ zs, load_zones (some zs) = zs) ∧ load_zones none = [] := by
  refine ⟨?_, ?_, fun _ => rfl, rfl⟩
  · intro pts zones h
    simp [mark_zones_callback_rbuttondown, not_le.2 h]
  · intro pts zones h
    simp [mark_zones_callback_rbuttondown, h]

theorem c7_no_registration_error_witness :
    mark_zones_callback_rbuttondown [(0, 0), (1, 1)] [] = ([], [(0, 0), (1, 1)]) ∧
    mark_zones_callback_rbuttondown [(0, 0), (4, 0), (0, 4)] []
      = ([[(0, 0), (4, 0), (0, 4)]], []) := by
  constructor
  · exact c7_no_registration_error.1 [(0, 0), (1, 1)] [] (by norm_num)
  · exact c7_no_registration_error.2.1 [(0, 0), (4, 0), (0, 4)] [] (by norm_num)
